import Mathlib

set_option maxHeartbeats 1000000

/-!
Shallow embedding of the rbak backup tool (src/main.rs).

Part 1 models Rust path manipulation as used by the program: a path is the
sequence of components yielded by Path::components (RootDir, CurDir,
ParentDir, Normal), and the string-level file_stem / extension /
with_extension operations follow Rust's split_file_at_dot.

Part 2 embeds backup_path (main.rs lines 45-71) and the two
destination-override derivations from main (lines 104-110 and 123-131).
The single filesystem access of backup_path, fs::metadata, is abstracted
as a function stat : RPath -> Option FileKind (metadata follows symlinks,
so it reports only file / dir / other).

Part 3 models the filesystem as an association list from component paths
to nodes and embeds backup_directory (lines 76-93) with explicit fuel for
the recursion: the Rust recursion is unbounded and can diverge when the
destination is created inside the source, so fuel exhaustion is reported
as an error; all theorems about successful runs are conditional on a
successful (error-free) result.
-/

inductive FileKind where
  | file : FileKind
  | dir : FileKind
  | other : FileKind
deriving DecidableEq

/-- BackupType from main.rs lines 37-40. -/
inductive BackupType where
  | File : BackupType
  | Directory : BackupType
deriving DecidableEq

/-- One component of a Rust path, as yielded by Path::components
(Windows prefixes are out of scope). -/
inductive Component where
  | rootDir : Component
  | curDir : Component
  | parentDir : Component
  | normal : String → Component
deriving DecidableEq

/-- A Rust path, as its normalized component sequence. -/
abbrev RPath := List Component

/-- Rust Path::parent: drops the last component; None for the empty path
and for a path that is only a root. -/
def RPath.parent (p : RPath) : Option RPath :=
  match p with
  | [] => none
  | [Component.rootDir] => none
  | _ => some p.dropLast

/-- Rust Path::file_name: the last component when it is a Normal
component, None otherwise (root, ".", a path ending in ".."). -/
def RPath.file_name (p : RPath) : Option String :=
  match p.getLast? with
  | some (Component.normal s) => some s
  | _ => none

/-- Index of the last occurrence of a dot in a character list. -/
def lastDotIdx : List Char → Option Nat
  | [] => none
  | c :: cs =>
    match lastDotIdx cs with
    | some i => some (i + 1)
    | none => if c = '.' then some 0 else none

/-- Rust std::path split_file_at_dot on a file name: returns (stem, extension).
A name of ".." or with no dot, or whose only dot is leading, has no
extension; otherwise the name splits at the last dot. -/
def splitFileAtDot (s : List Char) : List Char × Option (List Char) :=
  if s = ['.', '.'] then (s, none)
  else
    match lastDotIdx s with
    | none => (s, none)
    | some 0 => (s, none)
    | some i => (s.take i, some (s.drop (i + 1)))

/-- Rust Path::file_stem at the level of file-name strings. -/
def fileStemStr (s : String) : String :=
  (splitFileAtDot s.data).1.asString

/-- Rust Path::extension at the level of file-name strings. -/
def extensionStr (s : String) : Option String :=
  ((splitFileAtDot s.data).2).map List.asString

/-- Rust Path::with_extension on a single file name: replaces the
extension, i.e. the new name is stem `.` ext (just the stem when ext is
empty). -/
def withExtensionName (s ext : String) : String :=
  if ext.data = [] then (splitFileAtDot s.data).1.asString
  else ((splitFileAtDot s.data).1 ++ '.' :: ext.data).asString

/-- Rust str::trim_start_matches applied to the underscore character. -/
def trimUnderscores (s : String) : String :=
  (s.data.dropWhile (fun c => c = '_')).asString

/-- backup_path from main.rs lines 45-71, with fs::metadata abstracted as
the stat argument. Returns None when metadata fails, when the node kind
does not match the requested BackupType, when the path has no parent, or
when it has no file name; otherwise it builds parent/name.bak (File) or
parent/name_bak (Directory). -/
def backup_path (stat : RPath → Option FileKind) (path : RPath) (kind : BackupType) :
    Option RPath :=
  match stat path with
  | none => none
  | some metadata =>
    let vs : Bool × String :=
      match kind, metadata with
      | BackupType.File, FileKind.file => (true, "bak")
      | BackupType.Directory, FileKind.dir => (true, "_bak")
      | _, _ => (false, "")
    if vs.1 = false then none
    else
      match RPath.parent path, RPath.file_name path with
      | some par, some name =>
        match kind with
        | BackupType.File =>
          some (par ++ [Component.normal (withExtensionName name vs.2)])
        | BackupType.Directory =>
          some (par ++ [Component.normal (name ++ "_" ++ trimUnderscores vs.2)])
      | _, _ => none

/-- Realizability of a stat function: on an actual filesystem, a path whose
component sequence has no final Normal component (empty, a bare root, ".",
or ending in "..") resolves to a directory when it resolves at all, never
to a regular file. -/
def statRealizable (stat : RPath → Option FileKind) : Prop :=
  ∀ p : RPath, RPath.file_name p = none → stat p ≠ some FileKind.file

/-- The File branch of main with dest = Some (main.rs lines 104-110): no
validation of the source; the backup name is pushed onto dest_dir only
when the source has a file name. Total: derivation never fails. -/
def derive_with_dest_file (path dest_dir : RPath) : RPath :=
  match RPath.file_name path with
  | some name => dest_dir ++ [Component.normal (withExtensionName name "bak")]
  | none => dest_dir

/-- The Dir branch of main with dest = Some (main.rs lines 123-131):
derives the default sibling backup via backup_path, then joins its file
name onto dest_dir. The .unwrap() on file_name is modelled as the none
branch below; it is provably unreachable (backup_path always ends its
result in a Normal component). -/
def derive_with_dest_dir (stat : RPath → Option FileKind) (path dest_dir : RPath) :
    Option RPath :=
  match backup_path stat path BackupType.Directory with
  | none => none
  | some origBackup =>
    match RPath.file_name origBackup with
    | some bakDirName => some (dest_dir ++ [Component.normal bakDirName])
    | none => none

/-!
Part 3: the filesystem model and backup_directory.

A filesystem is a finite association list from absolute component paths
to nodes; lookup takes the first match, and updates replace in place, so
a filesystem with distinct keys keeps them distinct and keeps a stable
read_dir order. A node is a directory, a regular file with byte contents,
or anything else (symlink, socket, device); fs::read_dir on Linux reports
each entry's name and d_type together, which readDir models by
snapshotting (name, node) pairs.
-/

/-- An absolute filesystem path as a list of entry names. -/
abbrev FPath := List String

/-- A filesystem node: directory, regular file with contents, or a
non-regular entry (symlink, socket, device). -/
inductive Node where
  | dir : Node
  | file : List Nat → Node
  | other : Node
deriving DecidableEq, Inhabited

/-- A filesystem: finite association list from paths to nodes. -/
abbrev FS := List (FPath × Node)

/-- Lookup of a path in the filesystem (first match). -/
def fsGet (fs : FS) (p : FPath) : Option Node :=
  match fs with
  | [] => none
  | e :: rest => if e.1 = p then some e.2 else fsGet rest p

/-- Write a node at a path: replaces the first binding in place, or
appends a new binding. -/
def fsSet (fs : FS) (p : FPath) (n : Node) : FS :=
  match fs with
  | [] => [(p, n)]
  | e :: rest => if e.1 = p then (p, n) :: rest else e :: fsSet rest p n

/-- The filesystem binds each path at most once. -/
def fsNodup (fs : FS) : Prop := (fs.map Prod.fst).Nodup

/-- Every bound non-root path has its parent bound as a directory (true of
any real filesystem). -/
def fsParentClosed (fs : FS) : Prop :=
  ∀ e ∈ fs, e.1 ≠ [] → fsGet fs e.1.dropLast = some Node.dir

instance (fs : FS) : Decidable (fsNodup fs) :=
  inferInstanceAs (Decidable ((fs.map Prod.fst).Nodup))

instance (fs : FS) : Decidable (fsParentClosed fs) :=
  inferInstanceAs
    (Decidable (∀ e ∈ fs, e.1 ≠ [] → fsGet fs e.1.dropLast = some Node.dir))

/-- When q is a direct child of p, its entry name. -/
def childOf (p q : FPath) : Option String :=
  if p = q.take p.length then
    match q.drop p.length with
    | [n] => some n
    | _ => none
  else none

/-- The (name, node) pairs of the direct entries of p, in filesystem
order. -/
def childrenOf (fs : FS) (p : FPath) : List (String × Node) :=
  fs.filterMap (fun e => (childOf p e.1).map (fun n => (n, e.2)))

/-- fs::read_dir with the per-entry name and file type: errors unless p is
a directory. The error string is the anyhow context added at the
backup_directory call site (main.rs line 79); like the Rust error value,
it does not carry the failing path. -/
def readDir (fs : FS) (p : FPath) : Except String (List (String × Node)) :=
  match fsGet fs p with
  | some Node.dir => Except.ok (childrenOf fs p)
  | _ => Except.error "reading source directory"

/-- The nonempty prefixes of a path, shortest first. -/
def pathPrefixes (p : FPath) : List FPath :=
  (List.range p.length).map (fun i => p.take (i + 1))

/-- Create each listed directory in order: missing ones are created, an
existing directory is kept (idempotent), an existing non-directory aborts
with the context string of main.rs line 77. On error the filesystem at
the point of failure is returned (no rollback). -/
def mkDirs (fs : FS) (l : List FPath) : FS × Option String :=
  match l with
  | [] => (fs, none)
  | q :: rest =>
    match fsGet fs q with
    | none => mkDirs (fsSet fs q Node.dir) rest
    | some Node.dir => mkDirs fs rest
    | some _ => (fs, some "creating backup directory tree")

/-- fs::create_dir_all: creates the directory and all missing ancestors;
succeeds when it already exists. -/
def create_dir_all (fs : FS) (p : FPath) : FS × Option String :=
  mkDirs fs (pathPrefixes p)

/-- fs::copy with the context string of main.rs line 89: reads the source
file's current contents and writes them at dst, overwriting an existing
file; fails when the source is not a regular file or the destination is an
existing directory. Like the Rust error value, the error carries no
path. -/
def copyFile (fs : FS) (src dst : FPath) : FS × Option String :=
  match fsGet fs src with
  | some (Node.file c) =>
    match fsGet fs dst with
    | some Node.dir => (fs, some "copying file")
    | _ => (fsSet fs dst (Node.file c), none)
  | _ => (fs, some "copying file")

/-- One level of the backup_directory loop (main.rs lines 79-91) over the
snapshotted entries: a directory entry recurses through the supplied
function with dst/entry_name as the new destination, a regular file is
copied, anything else is skipped; the first error aborts the loop,
returning the filesystem as it stands. -/
def procLevel (recurse : FS → FPath → FPath → FS × Option String)
    (fs : FS) (src dst : FPath) (es : List (String × Node)) : FS × Option String :=
  match es with
  | [] => (fs, none)
  | (n, Node.dir) :: rest =>
    match recurse fs (src ++ [n]) (dst ++ [n]) with
    | (fs1, some e) => (fs1, some e)
    | (fs1, none) => procLevel recurse fs1 src dst rest
  | (n, Node.file _) :: rest =>
    match copyFile fs (src ++ [n]) (dst ++ [n]) with
    | (fs1, some e) => (fs1, some e)
    | (fs1, none) => procLevel recurse fs1 src dst rest
  | (_, Node.other) :: rest => procLevel recurse fs src dst rest

/-- backup_directory from main.rs lines 76-93: create_dir_all on dst, then
process the entries of src. Fuel bounds the recursion depth (the Rust
recursion is unbounded and can run forever when dst is created inside
src); running out of fuel is an error, so every theorem about a successful
run holds for the actual program. -/
def backup_directory : Nat → FS → FPath → FPath → FS × Option String
  | 0, fs, _, _ => (fs, some "recursion limit")
  | Nat.succ f, fs, src, dst =>
    match create_dir_all fs dst with
    | (fs1, some e) => (fs1, some e)
    | (fs1, none) =>
      match readDir fs1 src with
      | Except.error e => (fs1, some e)
      | Except.ok entries => procLevel (backup_directory f) fs1 src dst entries

/-- Does a metadata result match the requested backup type (the match
guards of main.rs lines 48-52)? -/
def typeMatch : FileKind → BackupType → Bool
  | FileKind.file, BackupType.File => true
  | FileKind.dir, BackupType.Directory => true
  | _, _ => false

/-!
Concrete inputs used by witnesses and counterexamples.
-/

/-- A working directory holding a single regular file report.txt. -/
def statReport : RPath → Option FileKind :=
  fun p => if p = [Component.normal "report.txt"] then some FileKind.file else none

/-- A working directory holding a single regular file report.bak. -/
def statReportBak : RPath → Option FileKind :=
  fun p => if p = [Component.normal "report.bak"] then some FileKind.file else none

/-- A working directory holding a single subdirectory proj. -/
def statProj : RPath → Option FileKind :=
  fun p => if p = [Component.normal "proj"] then some FileKind.dir else none

/-- A working directory holding an empty subdirectory a: the path a/..
(components [normal a, parentDir]) resolves to the working directory
itself, so it exists and is a directory, and its Rust parent() is the
existing directory a. -/
def statDirA : RPath → Option FileKind :=
  fun p =>
    if p = [Component.normal "a", Component.parentDir] then some FileKind.dir
    else if p = [Component.normal "a"] then some FileKind.dir
    else none

/-- Same filesystem shape with a directory named b, for the path b/.. . -/
def statDirB : RPath → Option FileKind :=
  fun p =>
    if p = [Component.normal "b", Component.parentDir] then some FileKind.dir
    else if p = [Component.normal "b"] then some FileKind.dir
    else none

/-- An empty working directory: no path consulted by the claims below
exists. -/
def statEmpty : RPath → Option FileKind := fun _ => none

/-- A filesystem with a source directory s (file a, subdirectory sub with
file b) and no destination. -/
def fsSmall : FS :=
  [([], Node.dir), (["s"], Node.dir), (["s", "a"], Node.file [1, 2]),
   (["s", "sub"], Node.dir), (["s", "sub", "b"], Node.file [3])]

/-- A filesystem where the destination d already exists and holds a
pre-existing file z next to the source s containing file a. -/
def fsPre : FS :=
  [([], Node.dir), (["s"], Node.dir), (["s", "a"], Node.file [1]),
   (["d"], Node.dir), (["d", "z"], Node.file [9])]

/-- A filesystem for the overlapping copy a/b into a: the source a/b
contains a subdirectory named b holding file f. -/
def fsOverlap : FS :=
  [([], Node.dir), (["a"], Node.dir), (["a", "b"], Node.dir),
   (["a", "b", "b"], Node.dir), (["a", "b", "b", "f"], Node.file [7])]

/-- A filesystem where copying s/x into d fails because d/x is an
existing directory. -/
def fsErrX : FS :=
  [([], Node.dir), (["s"], Node.dir), (["s", "x"], Node.file [1]),
   (["d"], Node.dir), (["d", "x"], Node.dir)]

/-- Same shape with the failing file named y instead of x. -/
def fsErrY : FS :=
  [([], Node.dir), (["s"], Node.dir), (["s", "y"], Node.file [2]),
   (["d"], Node.dir), (["d", "y"], Node.dir)]

/-!
Helper lemmas about the string and path operations.
-/

theorem lastDotIdx_reconstruct :
    ∀ {s : List Char} {i : Nat}, lastDotIdx s = some i →
      s = s.take i ++ '.' :: s.drop (i + 1) := by
  intro s
  induction s with
  | nil => intro i h; simp [lastDotIdx] at h
  | cons c cs ih =>
    intro i h
    unfold lastDotIdx at h
    cases hcs : lastDotIdx cs with
    | some j =>
      rw [hcs] at h
      cases h
      simpa using ih hcs
    | none =>
      rw [hcs] at h
      by_cases hc : c = '.'
      · simp [hc] at h
        subst hc
        cases h
        simp
      · simp [hc] at h

theorem splitFileAtDot_reconstruct {s st ex : List Char}
    (h : splitFileAtDot s = (st, some ex)) : s = st ++ '.' :: ex := by
  unfold splitFileAtDot at h
  by_cases hdd : s = ['.', '.']
  · simp [hdd] at h
  · simp only [hdd, if_false] at h
    cases hidx : lastDotIdx s with
    | none => rw [hidx] at h; simp at h
    | some i =>
      rw [hidx] at h
      cases i with
      | zero => simp at h
      | succ j =>
        simp at h
        obtain ⟨h1, h2⟩ := h
        rw [← h1, ← h2]
        exact lastDotIdx_reconstruct hidx

theorem asString_append (a b : List Char) : (a ++ b).asString = a.asString ++ b.asString := rfl

theorem asString_data (s : String) : s.data.asString = s := rfl

theorem withExtensionName_bak (s : String) :
    withExtensionName s "bak" = fileStemStr s ++ ".bak" := rfl

theorem withExtensionName_self {s : String} (h : extensionStr s = some "bak") :
    withExtensionName s "bak" = s := by
  unfold extensionStr at h
  cases hsp : (splitFileAtDot s.data).2 with
  | none => rw [hsp] at h; simp at h
  | some ex =>
    rw [hsp] at h
    simp at h
    have hex : ex = "bak".data := by
      have := congrArg String.data h
      simpa using this
    have hrec : s.data = (splitFileAtDot s.data).1 ++ '.' :: "bak".data := by
      rw [← hex]
      exact splitFileAtDot_reconstruct (by rw [← hsp])
    unfold withExtensionName
    rw [if_neg (by decide)]
    conv_rhs => rw [← asString_data s, hrec]

theorem rpath_decompose {p par : RPath} {name : String}
    (hpar : RPath.parent p = some par) (hname : RPath.file_name p = some name) :
    p = par ++ [Component.normal name] := by
  unfold RPath.file_name at hname
  cases hlast : p.getLast? with
  | none => rw [hlast] at hname; simp at hname
  | some c =>
    rw [hlast] at hname
    cases c with
    | normal s =>
      simp at hname
      subst hname
      have hne : p ≠ [] := by
        intro h; subst h; simp at hlast
      unfold RPath.parent at hpar
      match p, hne, hpar, hlast with
      | [Component.rootDir], _, hpar, hlast => exact absurd hlast (by simp)
      | [], hne, _, _ => exact absurd rfl hne
      | a :: b :: rest, _, hpar, hlast =>
        have hp : par = (a :: b :: rest).dropLast := by
          simpa using hpar.symm
        subst hp
        have := List.dropLast_append_getLast (l := a :: b :: rest) (by simp)
        rw [List.getLast?_eq_getLast _ (by simp)] at hlast
        simp at hlast
        rw [← hlast]
        exact this.symm
      | [Component.curDir], _, hpar, hlast => exact absurd hlast (by simp)
      | [Component.parentDir], _, hpar, hlast => exact absurd hlast (by simp)
      | [Component.normal t], _, hpar, hlast =>
        have hp : par = [] := by simpa using hpar.symm
        subst hp
        simp at hlast
        simp [hlast]
    | rootDir => simp at hname
    | curDir => simp at hname
    | parentDir => simp at hname

theorem file_name_append_normal (par : RPath) (s : String) :
    RPath.file_name (par ++ [Component.normal s]) = some s := by
  unfold RPath.file_name
  rw [List.getLast?_concat]

theorem backup_path_file_some {stat : RPath → Option FileKind} {path par : RPath} {name : String}
    (hstat : stat path = some FileKind.file) (hpar : RPath.parent path = some par)
    (hname : RPath.file_name path = some name) :
    backup_path stat path BackupType.File =
      some (par ++ [Component.normal (withExtensionName name "bak")]) := by
  unfold backup_path
  rw [hstat, hpar, hname]
  rfl

theorem backup_path_dir_some {stat : RPath → Option FileKind} {path par : RPath} {name : String}
    (hstat : stat path = some FileKind.dir) (hpar : RPath.parent path = some par)
    (hname : RPath.file_name path = some name) :
    backup_path stat path BackupType.Directory =
      some (par ++ [Component.normal (name ++ "_" ++ trimUnderscores "_bak")]) := by
  unfold backup_path
  rw [hstat, hpar, hname]
  rfl

theorem backup_path_file_eq {stat : RPath → Option FileKind} {path r : RPath}
    (h : backup_path stat path BackupType.File = some r) :
    ∃ par name, stat path = some FileKind.file ∧ RPath.parent path = some par ∧
      RPath.file_name path = some name ∧
      r = par ++ [Component.normal (withExtensionName name "bak")] := by
  unfold backup_path at h
  cases hstat : stat path with
  | none => rw [hstat] at h; exact absurd h (by simp)
  | some md =>
    rw [hstat] at h
    cases md with
    | dir => exact absurd h (by simp)
    | other => exact absurd h (by simp)
    | file =>
      cases hpar : RPath.parent path with
      | none => rw [hpar] at h; exact absurd h (by simp)
      | some par =>
        cases hname : RPath.file_name path with
        | none => rw [hpar, hname] at h; exact absurd h (by simp)
        | some name =>
          rw [hpar, hname] at h
          simp at h
          exact ⟨par, name, rfl, rfl, rfl, h.symm⟩

theorem backup_path_dir_eq {stat : RPath → Option FileKind} {path r : RPath}
    (h : backup_path stat path BackupType.Directory = some r) :
    ∃ par name, stat path = some FileKind.dir ∧ RPath.parent path = some par ∧
      RPath.file_name path = some name ∧
      r = par ++ [Component.normal (name ++ "_" ++ trimUnderscores "_bak")] := by
  unfold backup_path at h
  cases hstat : stat path with
  | none => rw [hstat] at h; exact absurd h (by simp)
  | some md =>
    rw [hstat] at h
    cases md with
    | file => exact absurd h (by simp)
    | other => exact absurd h (by simp)
    | dir =>
      cases hpar : RPath.parent path with
      | none => rw [hpar] at h; exact absurd h (by simp)
      | some par =>
        cases hname : RPath.file_name path with
        | none => rw [hpar, hname] at h; exact absurd h (by simp)
        | some name =>
          rw [hpar, hname] at h
          simp at h
          exact ⟨par, name, rfl, rfl, rfl, h.symm⟩

theorem string_append_assoc (a b c : String) : a ++ b ++ c = a ++ (b ++ c) := by
  cases a with | mk la =>
  cases b with | mk lb =>
  cases c with | mk lc =>
  show String.mk (la ++ lb ++ lc) = String.mk (la ++ (lb ++ lc))
  rw [List.append_assoc]

/-- C3: for every existing regular file f that has a parent directory,
backup_path(f, File) succeeds and the result is parent(f) joined with
stem(f) plus extension "bak" (an existing extension is replaced, a file
with no extension gets .bak appended, a .bak extension is replaced again
with bak). A real regular file always has a final Normal component, which
statRealizable records. -/
theorem c3_default_file_backup (stat : RPath → Option FileKind) (f par : RPath)
    (hreal : statRealizable stat) (hf : stat f = some FileKind.file)
    (hpar : RPath.parent f = some par) :
    ∃ name, RPath.file_name f = some name ∧
      backup_path stat f BackupType.File =
        some (par ++ [Component.normal (fileStemStr name ++ ".bak")]) := by
  cases hname : RPath.file_name f with
  | none => exact absurd hf (hreal f hname)
  | some name =>
    refine ⟨name, rfl, ?_⟩
    rw [backup_path_file_some hf hpar hname, withExtensionName_bak]

/-- Witness for C3 at the file report.txt in a directory that contains
only it: the derived backup is report.bak. -/
theorem c3_witness :
    statRealizable statReport ∧
    ∃ name, RPath.file_name [Component.normal "report.txt"] = some name ∧
      backup_path statReport [Component.normal "report.txt"] BackupType.File =
        some ([] ++ [Component.normal (fileStemStr name ++ ".bak")]) := by
  have hreal : statRealizable statReport := by
    intro p hp hc
    unfold statReport at hc
    by_cases h : p = [Component.normal "report.txt"]
    · subst h; exact absurd hp (by decide)
    · rw [if_neg h] at hc; exact absurd hc (by simp)
  exact ⟨hreal, c3_default_file_backup statReport [Component.normal "report.txt"] []
    hreal (by decide) (by decide)⟩

/-- C4 counterexample: the path a/.. (with a an existing empty directory)
is an existing directory whose parent, a, is itself an existing directory,
yet backup_path(a/.., Directory) returns none, because the path has no
final file-name component. The claim asserts it returns Some. -/
theorem c4_counterexample :
    statDirA [Component.normal "a", Component.parentDir] = some FileKind.dir ∧
    RPath.parent [Component.normal "a", Component.parentDir] = some [Component.normal "a"] ∧
    statDirA [Component.normal "a"] = some FileKind.dir ∧
    backup_path statDirA [Component.normal "a", Component.parentDir] BackupType.Directory =
      none := by decide

/-- C4 (amended): for every existing directory d that has a parent
directory and a final file-name component, backup_path(d, Directory)
succeeds and the result is parent(d) joined with the full original name
of d followed by the literal suffix "_bak" (any extension-like substring
of the name is kept intact). -/
theorem c4_default_dir_backup (stat : RPath → Option FileKind) (d par : RPath) (name : String)
    (hd : stat d = some FileKind.dir) (hpar : RPath.parent d = some par)
    (hname : RPath.file_name d = some name) :
    backup_path stat d BackupType.Directory =
      some (par ++ [Component.normal (name ++ "_bak")]) := by
  rw [backup_path_dir_some hd hpar hname]
  have h1 : trimUnderscores "_bak" = "bak" := by decide
  have h2 : ("_" : String) ++ "bak" = "_bak" := by decide
  rw [h1, string_append_assoc, h2]

/-- Witness for C4 at the directory proj.old (name containing an
extension-like substring): the derived backup is proj.old_bak. -/
theorem c4_witness :
    backup_path
        (fun p => if p = [Component.normal "proj.old"] then some FileKind.dir else none)
        [Component.normal "proj.old"] BackupType.Directory =
      some ([] ++ [Component.normal ("proj.old" ++ "_bak")]) :=
  c4_default_dir_backup _ [Component.normal "proj.old"] [] "proj.old"
    (by decide) (by decide) (by decide)

/-- C5 counterexample: the path b/.. (with b an existing empty directory)
exists, its filesystem type (directory) matches the requested Directory
kind, and it has a parent directory, yet backup_path returns none — the
claim says it returns Some in this situation. The missed condition is
that the path has no final file-name component. -/
theorem c5_counterexample :
    statDirB [Component.normal "b", Component.parentDir] = some FileKind.dir ∧
    RPath.parent [Component.normal "b", Component.parentDir] = some [Component.normal "b"] ∧
    backup_path statDirB [Component.normal "b", Component.parentDir] BackupType.Directory =
      none := by decide

/-- C5 (amended): backup_path(p, k) returns none exactly when the
metadata read fails (p does not exist), or p's filesystem type does not
match k, or p has no parent, or p has no final file-name component; in
all other cases it returns Some. -/
theorem c5_backup_path_none_iff (stat : RPath → Option FileKind) (p : RPath)
    (kind : BackupType) :
    backup_path stat p kind = none ↔
      (stat p = none ∨ (∃ md, stat p = some md ∧ typeMatch md kind = false) ∨
        RPath.parent p = none ∨ RPath.file_name p = none) := by
  cases hstat : stat p with
  | none => simp [backup_path, hstat]
  | some md =>
    cases md <;> cases kind <;>
      simp only [backup_path, hstat, typeMatch] <;>
      (try (simp; done)) <;>
      (cases hpar : RPath.parent p <;> cases hname : RPath.file_name p <;>
        simp [hpar, hname])

/-- C8: for every existing regular file f (with a parent) whose name
carries the extension "bak", backup_path(f, File) returns f itself, so
the default file backup copies the file onto its own path. -/
theorem c8_bak_extension_self (stat : RPath → Option FileKind) (f par : RPath) (name : String)
    (hf : stat f = some FileKind.file) (hpar : RPath.parent f = some par)
    (hname : RPath.file_name f = some name) (hext : extensionStr name = some "bak") :
    backup_path stat f BackupType.File = some f := by
  rw [backup_path_file_some hf hpar hname, withExtensionName_self hext,
    ← rpath_decompose hpar hname]

/-- Witness for C8 at the file report.bak: the derived backup path is
report.bak itself. -/
theorem c8_witness :
    backup_path statReportBak [Component.normal "report.bak"] BackupType.File =
      some [Component.normal "report.bak"] :=
  c8_bak_extension_self statReportBak [Component.normal "report.bak"] [] "report.bak"
    (by decide) (by decide) (by decide) (by decide)

/-- C9: in the file subcommand with a destination override, when the
source path has no final file-name component, the derived backup target
is the destination directory itself (the push of the name is skipped).
derive_with_dest_file is a total function into RPath: no error can be
raised at derivation time, so any failure surfaces only from the
subsequent copy. -/
theorem c9_file_dest_no_name (path dest_dir : RPath)
    (h : RPath.file_name path = none) :
    derive_with_dest_file path dest_dir = dest_dir := by
  unfold derive_with_dest_file
  rw [h]

/-- Witness for C9 at a root source path and destination out. -/
theorem c9_witness :
    derive_with_dest_file [Component.rootDir] [Component.normal "out"] =
      [Component.normal "out"] :=
  c9_file_dest_no_name [Component.rootDir] [Component.normal "out"] (by decide)

/-- C1 counterexample: with an empty working directory, the source
missing.txt does not exist, so derive_default (backup_path) fails; yet
the File branch of main with a destination override does not fail — it
derives out/missing.bak without consulting the filesystem at all. The
claim asserts the File branch validates the source through derive_default
and fails under its failure conditions. -/
theorem c1_counterexample :
    backup_path statEmpty [Component.normal "missing.txt"] BackupType.File = none ∧
    derive_with_dest_file [Component.normal "missing.txt"] [Component.normal "out"] =
      [Component.normal "out", Component.normal "missing.bak"] := by decide

/-- C1 (amended): the Directory branch with a destination override
validates the source by calling backup_path and fails exactly under its
failure conditions, and on success the result is dest_dir joined with the
backup name backup_path produces. The File branch with a destination
override performs no validation and never fails at derivation time; when
the source would be valid for backup_path, the name it joins onto
dest_dir agrees with the name backup_path would produce. -/
theorem c1_dest_derivation :
    (∀ (stat : RPath → Option FileKind) (path dest_dir orig : RPath),
      backup_path stat path BackupType.Directory = some orig →
      ∃ nm, RPath.file_name orig = some nm ∧
        derive_with_dest_dir stat path dest_dir = some (dest_dir ++ [Component.normal nm])) ∧
    (∀ (stat : RPath → Option FileKind) (path dest_dir : RPath),
      derive_with_dest_dir stat path dest_dir = none ↔
        backup_path stat path BackupType.Directory = none) ∧
    (∀ (stat : RPath → Option FileKind) (path dest_dir orig : RPath),
      backup_path stat path BackupType.File = some orig →
      ∃ nm, RPath.file_name orig = some nm ∧
        derive_with_dest_file path dest_dir = dest_dir ++ [Component.normal nm]) := by
  refine ⟨?_, ?_, ?_⟩
  · intro stat path dest_dir orig h
    obtain ⟨par, name, _, _, _, horig⟩ := backup_path_dir_eq h
    subst horig
    refine ⟨name ++ "_" ++ trimUnderscores "_bak", file_name_append_normal _ _, ?_⟩
    unfold derive_with_dest_dir
    rw [h]
    dsimp only
    rw [file_name_append_normal]
  · intro stat path dest_dir
    unfold derive_with_dest_dir
    cases h : backup_path stat path BackupType.Directory with
    | none => simp
    | some orig =>
      obtain ⟨par, name, _, _, _, horig⟩ := backup_path_dir_eq h
      subst horig
      dsimp only
      rw [file_name_append_normal]
      simp
  · intro stat path dest_dir orig h
    obtain ⟨par, name, _, _, hname, horig⟩ := backup_path_file_eq h
    subst horig
    refine ⟨withExtensionName name "bak", file_name_append_normal _ _, ?_⟩
    unfold derive_with_dest_file
    rw [hname]

/-- Witness for C1: the Directory branch at proj with destination out
(derives out/proj_bak) and the File branch at report.txt with destination
out (derives out/report.bak, agreeing with backup_path's name). -/
theorem c1_witness :
    (∃ nm, RPath.file_name [Component.normal "proj_bak"] = some nm ∧
      derive_with_dest_dir statProj [Component.normal "proj"] [Component.normal "out"] =
        some ([Component.normal "out"] ++ [Component.normal nm])) ∧
    (∃ nm, RPath.file_name [Component.normal "report.bak"] = some nm ∧
      derive_with_dest_file [Component.normal "report.txt"] [Component.normal "out"] =
        [Component.normal "out"] ++ [Component.normal nm]) :=
  ⟨c1_dest_derivation.1 statProj [Component.normal "proj"] [Component.normal "out"]
      [Component.normal "proj_bak"] (by decide),
   c1_dest_derivation.2.2 statReport [Component.normal "report.txt"] [Component.normal "out"]
      [Component.normal "report.bak"] (by decide)⟩

/-!
Basic lemmas about the filesystem association list.
-/

theorem fsGet_fsSet_self (fs : FS) (p : FPath) (n : Node) :
    fsGet (fsSet fs p n) p = some n := by
  induction fs with
  | nil => simp [fsSet, fsGet]
  | cons e rest ih =>
    by_cases h : e.1 = p
    · simp [fsSet, h, fsGet]
    · simp [fsSet, h, fsGet, ih]

theorem fsGet_fsSet_ne (fs : FS) (p q : FPath) (n : Node) (h : q ≠ p) :
    fsGet (fsSet fs p n) q = fsGet fs q := by
  have hpq : ¬ (p = q) := fun hh => h hh.symm
  induction fs with
  | nil => simp [fsSet, fsGet, hpq]
  | cons e rest ih =>
    by_cases he : e.1 = p
    · simp [fsSet, he, fsGet, hpq]
    · by_cases heq : e.1 = q
      · simp [fsSet, he, fsGet, heq, h]
      · simp [fsSet, he, fsGet, heq, ih]

theorem fsGet_mem : ∀ {fs : FS} {p : FPath} {n : Node}, fsGet fs p = some n → (p, n) ∈ fs := by
  intro fs
  induction fs with
  | nil => intro p n h; simp [fsGet] at h
  | cons e rest ih =>
    intro p n h
    unfold fsGet at h
    by_cases he : e.1 = p
    · rw [if_pos he] at h
      injection h with h2
      subst h2
      have hpe : (p, e.2) = e := by rw [← he]
      rw [hpe]
      exact List.mem_cons_self _ _
    · rw [if_neg he] at h
      exact List.mem_cons_of_mem _ (ih h)

theorem mem_fsSet {fs : FS} {p : FPath} {n : Node} {e : FPath × Node}
    (h : e ∈ fsSet fs p n) : e ∈ fs ∨ e = (p, n) := by
  induction fs with
  | nil => simp [fsSet] at h; right; exact h
  | cons f rest ih =>
    unfold fsSet at h
    by_cases hf : f.1 = p
    · rw [if_pos hf] at h
      rcases List.mem_cons.mp h with h | h
      · right; exact h
      · left; exact List.mem_cons_of_mem _ h
    · rw [if_neg hf] at h
      rcases List.mem_cons.mp h with h | h
      · left; exact h ▸ List.mem_cons_self _ _
      · rcases ih h with h | h
        · left; exact List.mem_cons_of_mem _ h
        · right; exact h

theorem fsNodup_fsSet : ∀ {fs : FS}, fsNodup fs → ∀ (p : FPath) (n : Node),
    fsNodup (fsSet fs p n) := by
  intro fs
  induction fs with
  | nil => intro _ p n; simp [fsSet, fsNodup]
  | cons e rest ih =>
    intro hn p n
    unfold fsNodup at hn ⊢
    rw [List.map_cons, List.nodup_cons] at hn
    by_cases he : e.1 = p
    · unfold fsSet
      rw [if_pos he, List.map_cons, List.nodup_cons]
      exact ⟨by rw [← he]; exact hn.1, hn.2⟩
    · unfold fsSet
      rw [if_neg he, List.map_cons, List.nodup_cons]
      constructor
      · intro hmem
        rcases List.mem_map.mp hmem with ⟨a, ha, hfst⟩
        rcases mem_fsSet ha with h2 | h2
        · exact hn.1 (List.mem_map.mpr ⟨a, h2, hfst⟩)
        · rw [h2] at hfst
          exact he hfst.symm
      · exact ih hn.2 p n

theorem mem_fsGet : ∀ {fs : FS}, fsNodup fs → ∀ {p : FPath} {n : Node},
    (p, n) ∈ fs → fsGet fs p = some n := by
  intro fs
  induction fs with
  | nil => intro _ p n h; simp at h
  | cons e rest ih =>
    intro hn p n h
    unfold fsNodup at hn
    rw [List.map_cons, List.nodup_cons] at hn
    rcases List.mem_cons.mp h with h | h
    · rw [← h]
      simp [fsGet]
    · unfold fsGet
      by_cases he : e.1 = p
      · exact absurd (List.mem_map.mpr ⟨(p, n), h, by rw [he]⟩) hn.1
      · rw [if_neg he]
        exact ih hn.2 h

theorem fsGet_eq_none_iff {fs : FS} {p : FPath} :
    fsGet fs p = none ↔ ∀ e ∈ fs, e.1 ≠ p := by
  induction fs with
  | nil => simp [fsGet]
  | cons e rest ih =>
    unfold fsGet
    by_cases he : e.1 = p
    · simp [he]
    · simp [he, ih]

/-!
Parent-closure and prefix lemmas.
-/

theorem parentClosed_get {fs : FS} (hpc : fsParentClosed fs) {p : FPath} {n : Node}
    (h : fsGet fs p = some n) (hne : p ≠ []) : fsGet fs p.dropLast = some Node.dir :=
  hpc (p, n) (fsGet_mem h) hne

theorem absent_under {fs : FS} (hpc : fsParentClosed fs) {p : FPath}
    (h : fsGet fs p = none) : ∀ rel, rel ≠ [] → fsGet fs (p ++ rel) = none := by
  intro rel
  induction rel using List.reverseRecOn with
  | nil => intro hne; exact absurd rfl hne
  | append_singleton r a ih =>
    intro _
    cases hr : fsGet fs (p ++ (r ++ [a])) with
    | none => rfl
    | some nd =>
      have hpar := parentClosed_get hpc hr (by simp)
      rw [show p ++ (r ++ [a]) = (p ++ r) ++ [a] by simp, List.dropLast_concat] at hpar
      by_cases hrn : r = []
      · rw [hrn] at hpar
        simp at hpar
        rw [h] at hpar
        exact absurd hpar (by simp)
      · rw [ih hrn] at hpar
        exact absurd hpar (by simp)

theorem nondir_no_children {fs : FS} (hpc : fsParentClosed fs) {p : FPath} {nd : Node}
    (h : fsGet fs p = some nd) (hnd : nd ≠ Node.dir) :
    ∀ rel, rel ≠ [] → fsGet fs (p ++ rel) = none := by
  intro rel hne
  cases rel with
  | nil => exact absurd rfl hne
  | cons a rel2 =>
    have hone : fsGet fs (p ++ [a]) = none := by
      cases hget : fsGet fs (p ++ [a]) with
      | none => rfl
      | some m =>
        have hpar := parentClosed_get hpc hget (by simp)
        rw [List.dropLast_concat] at hpar
        rw [h] at hpar
        injection hpar with h2
        exact absurd h2 hnd
    cases hrel2 : rel2 with
    | nil => simpa using hone
    | cons b rel3 =>
      have := absent_under hpc hone (rel2) (by rw [hrel2]; simp)
      rw [show p ++ [a] ++ rel2 = p ++ (a :: rel2) by simp] at this
      rw [← hrel2]
      exact this

theorem ancestors_dir {fs : FS} (hpc : fsParentClosed fs) :
    ∀ {p : FPath} {nd : Node}, fsGet fs p = some nd →
      ∀ q, q <+: p → q ≠ p → fsGet fs q = some Node.dir := by
  intro p
  induction p using List.reverseRecOn with
  | nil =>
    intro nd _ q hq hne
    exact absurd (List.prefix_nil.mp hq) hne
  | append_singleton r a ih =>
    intro nd h q hq hne
    have hpar : fsGet fs r = some Node.dir := by
      have := parentClosed_get hpc h (by simp)
      rwa [List.dropLast_concat] at this
    rcases List.prefix_concat_iff.mp hq with hq2 | hq2
    · exact absurd hq2 hne
    · by_cases hqr : q = r
      · rw [hqr]; exact hpar
      · exact ih hpar q hq2 hqr

theorem prefix_snoc_cases {q p : FPath} {a : String} (h : q <+: p ++ [a]) :
    q <+: p ∨ q = p ++ [a] := by
  rcases List.prefix_concat_iff.mp h with h2 | h2
  · right; exact h2
  · left; exact h2

theorem prefix_append_cancel {l a b : FPath} (h : l ++ a <+: l ++ b) : a <+: b := by
  obtain ⟨t, ht⟩ := h
  rw [List.append_assoc] at ht
  exact ⟨t, List.append_cancel_left ht⟩

theorem snoc_prefix_snoc {src dst : FPath} {n : String}
    (h : src ++ [n] <+: dst ++ [n]) : src <+: dst := by
  rcases prefix_snoc_cases h with h2 | h2
  · exact (List.prefix_append src [n]).trans h2
  · exact ⟨[], (List.append_cancel_right h2).symm ▸ by simp⟩

theorem cone_disjoint {src dst q : FPath} (h1 : ¬ src <+: dst) (h2 : ¬ dst <+: src)
    (hs : src <+: q) (hd : dst <+: q) : False := by
  rcases List.prefix_or_prefix_of_prefix hs hd with h | h
  · exact h1 h
  · exact h2 h

/-!
Lemmas about directory listings.
-/

theorem childOf_eq_some {p q : FPath} {n : String} :
    childOf p q = some n ↔ q = p ++ [n] := by
  constructor
  · intro h
    unfold childOf at h
    by_cases hp : p = q.take p.length
    · rw [if_pos hp] at h
      cases hd : q.drop p.length with
      | nil => rw [hd] at h; simp at h
      | cons b t =>
        cases t with
        | nil =>
          rw [hd] at h
          simp at h
          subst h
          conv_lhs => rw [← List.take_append_drop p.length q, ← hp, hd]
        | cons c t2 => rw [hd] at h; simp at h
    · rw [if_neg hp] at h
      simp at h
  · intro h
    subst h
    unfold childOf
    rw [if_pos (List.take_left p [n]).symm, List.drop_left]

theorem mem_childrenOf {fs : FS} {p : FPath} {n : String} {nd : Node} :
    (n, nd) ∈ childrenOf fs p ↔ (p ++ [n], nd) ∈ fs := by
  unfold childrenOf
  rw [List.mem_filterMap]
  constructor
  · rintro ⟨e, he, hval⟩
    cases hc : childOf p e.1 with
    | none => rw [hc] at hval; simp at hval
    | some m =>
      rw [hc] at hval
      simp at hval
      have := childOf_eq_some.mp hc
      rw [hval.1] at this
      have he2 : e = (p ++ [n], nd) := by
        rw [Prod.ext_iff]
        exact ⟨this, hval.2⟩
      rw [← he2]
      exact he
  · intro h
    refine ⟨(p ++ [n], nd), h, ?_⟩
    rw [show childOf p (p ++ [n], nd).1 = some n from childOf_eq_some.mpr rfl]
    rfl

theorem childrenOf_acc {fs : FS} (hn : fsNodup fs) {p : FPath} {n : String} {nd : Node}
    (h : (n, nd) ∈ childrenOf fs p) : fsGet fs (p ++ [n]) = some nd :=
  mem_fsGet hn (mem_childrenOf.mp h)

theorem childrenOf_complete {fs : FS} {p : FPath} {n : String} {nd : Node}
    (h : fsGet fs (p ++ [n]) = some nd) : (n, nd) ∈ childrenOf fs p :=
  mem_childrenOf.mpr (fsGet_mem h)

theorem childrenOf_names_nodup : ∀ {fs : FS}, fsNodup fs → ∀ (p : FPath),
    ((childrenOf fs p).map Prod.fst).Nodup := by
  intro fs
  induction fs with
  | nil => intro _ p; simp [childrenOf]
  | cons e rest ih =>
    intro hn p
    unfold fsNodup at hn
    rw [List.map_cons, List.nodup_cons] at hn
    unfold childrenOf
    cases hc : childOf p e.1 with
    | none =>
      rw [List.filterMap_cons_none (by rw [hc]; rfl)]
      exact ih hn.2 p
    | some m =>
      rw [List.filterMap_cons_some (by rw [hc]; rfl)]
      rw [List.map_cons, List.nodup_cons]
      constructor
      · intro hmem
        rcases List.mem_map.mp hmem with ⟨b, hb, hfst⟩
        rcases List.mem_filterMap.mp hb with ⟨e2, he2, hval⟩
        cases hc2 : childOf p e2.1 with
        | none => rw [hc2] at hval; simp at hval
        | some m2 =>
          rw [hc2] at hval
          simp at hval
          have h1 := childOf_eq_some.mp hc
          have h2 := childOf_eq_some.mp hc2
          apply hn.1
          rw [h1]
          have hm : m2 = m := by
            rw [← hval] at hfst
            simpa using hfst
          rw [hm] at h2
          rw [← h2]
          exact List.mem_map.mpr ⟨e2, he2, rfl⟩
      · exact ih hn.2 p

/-!
Lemmas about directory creation and file copying.
-/

theorem mkDirs_cons_none (fs : FS) (x : FPath) (rest : List FPath)
    (h : fsGet fs x = none) :
    mkDirs fs (x :: rest) = mkDirs (fsSet fs x Node.dir) rest := by
  conv_lhs => unfold mkDirs
  rw [h]

theorem mkDirs_cons_dir (fs : FS) (x : FPath) (rest : List FPath)
    (h : fsGet fs x = some Node.dir) :
    mkDirs fs (x :: rest) = mkDirs fs rest := by
  conv_lhs => unfold mkDirs
  rw [h]

theorem mkDirs_cons_file (fs : FS) (x : FPath) (rest : List FPath) (c : List Nat)
    (h : fsGet fs x = some (Node.file c)) :
    mkDirs fs (x :: rest) = (fs, some "creating backup directory tree") := by
  unfold mkDirs
  rw [h]

theorem mkDirs_cons_other (fs : FS) (x : FPath) (rest : List FPath)
    (h : fsGet fs x = some Node.other) :
    mkDirs fs (x :: rest) = (fs, some "creating backup directory tree") := by
  unfold mkDirs
  rw [h]

theorem mkDirs_frame : ∀ (l : List FPath) (fs : FS) (q : FPath), q ∉ l →
    fsGet ((mkDirs fs l).1) q = fsGet fs q := by
  intro l
  induction l with
  | nil => intro fs q _; rfl
  | cons x rest ih =>
    intro fs q hq
    have hqx : q ≠ x := fun h => hq (h ▸ List.mem_cons_self _ _)
    have hqrest : q ∉ rest := fun h => hq (List.mem_cons_of_mem _ h)
    unfold mkDirs
    cases hx : fsGet fs x with
    | none =>
      rw [ih _ _ hqrest, fsGet_fsSet_ne _ _ _ _ hqx]
    | some nd =>
      cases nd with
      | dir => exact ih _ _ hqrest
      | file c => rfl
      | other => rfl

theorem mkDirs_existing : ∀ (l : List FPath) (fs : FS) (q : FPath) (nd : Node),
    fsGet fs q = some nd → fsGet ((mkDirs fs l).1) q = some nd := by
  intro l
  induction l with
  | nil => intro fs q nd h; exact h
  | cons x rest ih =>
    intro fs q nd h
    unfold mkDirs
    cases hx : fsGet fs x with
    | none =>
      apply ih
      have hqx : q ≠ x := fun he => by rw [he, hx] at h; exact absurd h (by simp)
      rw [fsGet_fsSet_ne _ _ _ _ hqx]
      exact h
    | some m =>
      cases m with
      | dir => exact ih _ _ _ h
      | file c => exact h
      | other => exact h

theorem mkDirs_ok_dirs : ∀ (l : List FPath) (fs : FS), (mkDirs fs l).2 = none →
    ∀ q ∈ l, fsGet ((mkDirs fs l).1) q = some Node.dir := by
  intro l
  induction l with
  | nil => intro fs _ q hq; simp at hq
  | cons x rest ih =>
    intro fs hok q hq
    unfold mkDirs at hok ⊢
    cases hx : fsGet fs x with
    | none =>
      rw [hx] at hok
      rcases List.mem_cons.mp hq with hq | hq
      · subst hq
        exact mkDirs_existing _ _ _ _ (fsGet_fsSet_self fs q Node.dir)
      · exact ih _ hok q hq
    | some m =>
      rw [hx] at hok
      cases m with
      | dir =>
        rcases List.mem_cons.mp hq with hq | hq
        · subst hq
          exact mkDirs_existing _ _ _ _ hx
        · exact ih _ hok q hq
      | file c => simp at hok
      | other => simp at hok

theorem mkDirs_noop : ∀ (l : List FPath) (fs : FS),
    (∀ q ∈ l, fsGet fs q = some Node.dir) → mkDirs fs l = (fs, none) := by
  intro l
  induction l with
  | nil => intro fs _; rfl
  | cons x rest ih =>
    intro fs h
    unfold mkDirs
    rw [h x (List.mem_cons_self _ _)]
    exact ih fs (fun q hq => h q (List.mem_cons_of_mem _ hq))

theorem mkDirs_nodup : ∀ (l : List FPath) (fs : FS), fsNodup fs →
    fsNodup ((mkDirs fs l).1) := by
  intro l
  induction l with
  | nil => intro fs h; exact h
  | cons x rest ih =>
    intro fs h
    unfold mkDirs
    cases hx : fsGet fs x with
    | none => exact ih _ (fsNodup_fsSet h x Node.dir)
    | some m =>
      cases m with
      | dir => exact ih _ h
      | file c => exact h
      | other => exact h

theorem mkDirs_append : ∀ (l1 l2 : List FPath) (fs : FS),
    mkDirs fs (l1 ++ l2) =
      (match mkDirs fs l1 with
       | (fs1, none) => mkDirs fs1 l2
       | (fs1, some e) => (fs1, some e)) := by
  intro l1
  induction l1 with
  | nil => intro l2 fs; rfl
  | cons x rest ih =>
    intro l2 fs
    rw [List.cons_append]
    cases hx : fsGet fs x with
    | none =>
      rw [mkDirs_cons_none _ _ _ hx, mkDirs_cons_none _ _ _ hx, ih]
    | some m =>
      cases m with
      | dir => rw [mkDirs_cons_dir _ _ _ hx, mkDirs_cons_dir _ _ _ hx, ih]
      | file c => rw [mkDirs_cons_file _ _ _ _ hx, mkDirs_cons_file _ _ _ _ hx]
      | other => rw [mkDirs_cons_other _ _ _ hx, mkDirs_cons_other _ _ _ hx]

theorem mem_pathPrefixes {p q : FPath} : q ∈ pathPrefixes p ↔ (q <+: p ∧ q ≠ []) := by
  unfold pathPrefixes
  rw [List.mem_map]
  constructor
  · rintro ⟨i, hi, hq⟩
    rw [List.mem_range] at hi
    subst hq
    refine ⟨List.take_prefix _ _, ?_⟩
    have : p ≠ [] := by
      intro h
      rw [h] at hi
      simp at hi
    intro h
    rw [List.take_eq_nil_iff] at h
    rcases h with h | h
    · exact absurd h (by simp)
    · exact this h
  · rintro ⟨hpre, hne⟩
    have hlen : q.length ≤ p.length := hpre.length_le
    have hpos : 0 < q.length := List.length_pos.mpr hne
    refine ⟨q.length - 1, ?_, ?_⟩
    · rw [List.mem_range]
      omega
    · have h1 : q.length - 1 + 1 = q.length := by omega
      rw [h1]
      exact (List.prefix_iff_eq_take.mp hpre).symm

theorem pathPrefixes_concat (p : FPath) (a : String) :
    pathPrefixes (p ++ [a]) = pathPrefixes p ++ [p ++ [a]] := by
  unfold pathPrefixes
  rw [List.length_append, List.length_singleton, List.range_succ, List.map_append]
  congr 1
  · apply List.map_congr_left
    intro i hi
    rw [List.mem_range] at hi
    exact List.take_append_of_le_length (by omega)
  · simp

theorem fsSet_parentClosed_dir {fs : FS} (hpc : fsParentClosed fs) {q : FPath}
    (_hq : q ≠ []) (hpar : fsGet fs q.dropLast = some Node.dir)
    (habs : fsGet fs q = none) : fsParentClosed (fsSet fs q Node.dir) := by
  intro e he hne
  rcases mem_fsSet he with h | h
  · have hold := hpc e h hne
    by_cases hd : e.1.dropLast = q
    · rw [hd, habs] at hold
      exact absurd hold (by simp)
    · rw [fsGet_fsSet_ne _ _ _ _ hd]
      exact hold
  · subst h
    by_cases hd : q.dropLast = q
    · rw [hd]
      exact fsGet_fsSet_self _ _ _
    · rw [fsGet_fsSet_ne _ _ _ _ hd]
      exact hpar

theorem fsSet_parentClosed_file {fs : FS} (hpc : fsParentClosed fs) {q : FPath} {c : List Nat}
    (hq : q ≠ []) (hpar : fsGet fs q.dropLast = some Node.dir)
    (hnotdir : fsGet fs q ≠ some Node.dir) : fsParentClosed (fsSet fs q (Node.file c)) := by
  intro e he hne
  rcases mem_fsSet he with h | h
  · have hold := hpc e h hne
    by_cases hd : e.1.dropLast = q
    · rw [hd] at hold
      exact absurd hold hnotdir
    · rw [fsGet_fsSet_ne _ _ _ _ hd]
      exact hold
  · subst h
    dsimp only
    by_cases hd : q.dropLast = q
    · have : q.dropLast.length = q.length := by rw [hd]
      rw [List.length_dropLast] at this
      have : q.length = 0 := by omega
      exact absurd (List.length_eq_zero.mp this) hq
    · rw [fsGet_fsSet_ne _ _ _ _ hd]
      exact hpar

theorem mkDirs_parentClosed_prefixes :
    ∀ (p : FPath) (fs : FS), fsParentClosed fs → fsGet fs [] = some Node.dir →
      (create_dir_all fs p).2 = none → fsParentClosed ((create_dir_all fs p).1) := by
  intro p
  induction p using List.reverseRecOn with
  | nil =>
    intro fs hpc _ _
    exact hpc
  | append_singleton r a ih =>
    intro fs hpc hroot hok
    unfold create_dir_all at hok ⊢
    rw [pathPrefixes_concat, mkDirs_append] at hok ⊢
    cases hr : mkDirs fs (pathPrefixes r) with
    | mk fs1 err =>
      cases err with
      | some e => rw [hr] at hok; simp at hok
      | none =>
        rw [hr] at hok
        dsimp only at hok ⊢
        have heq : create_dir_all fs r = (fs1, none) := by
          unfold create_dir_all
          exact hr
        have hpc1 : fsParentClosed fs1 := by
          have h2 := ih fs hpc hroot (by rw [heq])
          rw [heq] at h2
          exact h2
        have hr1 := mkDirs_existing (pathPrefixes r) fs [] Node.dir hroot
        rw [hr] at hr1
        dsimp only at hr1
        have hrdir : fsGet fs1 r = some Node.dir := by
          cases hrn : r with
          | nil => exact hr1
          | cons b t =>
            have hmem : r ∈ pathPrefixes r :=
              mem_pathPrefixes.mpr ⟨List.prefix_rfl, by rw [hrn]; simp⟩
            have h3 := mkDirs_ok_dirs (pathPrefixes r) fs (by rw [hr]) r hmem
            rw [hr] at h3
            dsimp only at h3
            rw [← hrn]
            exact h3
        cases hx : fsGet fs1 (r ++ [a]) with
        | none =>
          rw [mkDirs_cons_none _ _ _ hx]
          apply fsSet_parentClosed_dir hpc1 (by simp) _ hx
          rw [List.dropLast_concat]
          exact hrdir
        | some m =>
          cases m with
          | dir =>
            rw [mkDirs_cons_dir _ _ _ hx]
            exact hpc1
          | file c =>
            rw [mkDirs_cons_file _ _ _ _ hx] at hok
            simp at hok
          | other =>
            rw [mkDirs_cons_other _ _ _ hx] at hok
            simp at hok

theorem copyFile_src_none {fs : FS} {s : FPath} (d : FPath) (h : fsGet fs s = none) :
    copyFile fs s d = (fs, some "copying file") := by
  unfold copyFile
  rw [h]

theorem copyFile_src_dir {fs : FS} {s : FPath} (d : FPath) (h : fsGet fs s = some Node.dir) :
    copyFile fs s d = (fs, some "copying file") := by
  unfold copyFile
  rw [h]

theorem copyFile_src_other {fs : FS} {s : FPath} (d : FPath)
    (h : fsGet fs s = some Node.other) :
    copyFile fs s d = (fs, some "copying file") := by
  unfold copyFile
  rw [h]

theorem copyFile_to_dir {fs : FS} {s d : FPath} {c : List Nat}
    (h1 : fsGet fs s = some (Node.file c)) (h2 : fsGet fs d = some Node.dir) :
    copyFile fs s d = (fs, some "copying file") := by
  unfold copyFile
  rw [h1, h2]

theorem copyFile_write {fs : FS} {s d : FPath} {c : List Nat}
    (h1 : fsGet fs s = some (Node.file c)) (h2 : fsGet fs d ≠ some Node.dir) :
    copyFile fs s d = (fsSet fs d (Node.file c), none) := by
  unfold copyFile
  rw [h1]
  cases hd : fsGet fs d with
  | none => rfl
  | some md =>
    cases md with
    | dir => exact absurd hd h2
    | file c2 => rfl
    | other => rfl

theorem copyFile_ok {fs fs2 : FS} {s d : FPath}
    (h : copyFile fs s d = (fs2, none)) :
    ∃ c, fsGet fs s = some (Node.file c) ∧ fsGet fs d ≠ some Node.dir ∧
      fs2 = fsSet fs d (Node.file c) := by
  cases hs : fsGet fs s with
  | none => rw [copyFile_src_none d hs] at h; simp at h
  | some m =>
    cases m with
    | dir => rw [copyFile_src_dir d hs] at h; simp at h
    | other => rw [copyFile_src_other d hs] at h; simp at h
    | file c =>
      by_cases hd : fsGet fs d = some Node.dir
      · rw [copyFile_to_dir hs hd] at h
        simp at h
      · rw [copyFile_write hs hd] at h
        injection h with h1 h2
        exact ⟨c, rfl, hd, h1.symm⟩

theorem copyFile_err {fs fs2 : FS} {s d : FPath} {e : String}
    (h : copyFile fs s d = (fs2, some e)) : fs2 = fs := by
  cases hs : fsGet fs s with
  | none => rw [copyFile_src_none d hs] at h; injection h with h1 h2; exact h1.symm
  | some m =>
    cases m with
    | dir => rw [copyFile_src_dir d hs] at h; injection h with h1 h2; exact h1.symm
    | other => rw [copyFile_src_other d hs] at h; injection h with h1 h2; exact h1.symm
    | file c =>
      by_cases hd : fsGet fs d = some Node.dir
      · rw [copyFile_to_dir hs hd] at h
        injection h with h1 h2
        exact h1.symm
      · rw [copyFile_write hs hd] at h
        simp at h

/-!
Step equations for the copy loop and the recursion.
-/

theorem procLevel_nil (recurse : FS → FPath → FPath → FS × Option String)
    (fs : FS) (src dst : FPath) : procLevel recurse fs src dst [] = (fs, none) := rfl

theorem procLevel_other (recurse : FS → FPath → FPath → FS × Option String)
    (fs : FS) (src dst : FPath) (n : String) (rest : List (String × Node)) :
    procLevel recurse fs src dst ((n, Node.other) :: rest) =
      procLevel recurse fs src dst rest := rfl

theorem procLevel_dir_ok {recurse : FS → FPath → FPath → FS × Option String}
    {fs fs1 : FS} {src dst : FPath} {n : String} (rest : List (String × Node))
    (h : recurse fs (src ++ [n]) (dst ++ [n]) = (fs1, none)) :
    procLevel recurse fs src dst ((n, Node.dir) :: rest) =
      procLevel recurse fs1 src dst rest := by
  conv_lhs => unfold procLevel
  rw [h]

theorem procLevel_dir_err {recurse : FS → FPath → FPath → FS × Option String}
    {fs fs1 : FS} {src dst : FPath} {n : String} {e : String} (rest : List (String × Node))
    (h : recurse fs (src ++ [n]) (dst ++ [n]) = (fs1, some e)) :
    procLevel recurse fs src dst ((n, Node.dir) :: rest) = (fs1, some e) := by
  conv_lhs => unfold procLevel
  rw [h]

theorem procLevel_file_ok {recurse : FS → FPath → FPath → FS × Option String}
    {fs fs1 : FS} {src dst : FPath} {n : String} {c : List Nat}
    (rest : List (String × Node))
    (h : copyFile fs (src ++ [n]) (dst ++ [n]) = (fs1, none)) :
    procLevel recurse fs src dst ((n, Node.file c) :: rest) =
      procLevel recurse fs1 src dst rest := by
  conv_lhs => unfold procLevel
  rw [h]

theorem procLevel_file_err {recurse : FS → FPath → FPath → FS × Option String}
    {fs fs1 : FS} {src dst : FPath} {n : String} {c : List Nat} {e : String}
    (rest : List (String × Node))
    (h : copyFile fs (src ++ [n]) (dst ++ [n]) = (fs1, some e)) :
    procLevel recurse fs src dst ((n, Node.file c) :: rest) = (fs1, some e) := by
  conv_lhs => unfold procLevel
  rw [h]

theorem bd_zero (fs : FS) (src dst : FPath) :
    backup_directory 0 fs src dst = (fs, some "recursion limit") := rfl

theorem bd_succ_createErr {fs fs1 : FS} {dst : FPath} {e : String} (f : Nat) (src : FPath)
    (h : create_dir_all fs dst = (fs1, some e)) :
    backup_directory (f + 1) fs src dst = (fs1, some e) := by
  conv_lhs => unfold backup_directory
  rw [h]

theorem bd_succ_readErr {fs fs1 : FS} {src dst : FPath} {e : String} (f : Nat)
    (h1 : create_dir_all fs dst = (fs1, none)) (h2 : readDir fs1 src = Except.error e) :
    backup_directory (f + 1) fs src dst = (fs1, some e) := by
  conv_lhs => unfold backup_directory
  rw [h1]
  dsimp only
  rw [h2]

theorem bd_succ_ok {fs fs1 : FS} {src dst : FPath} {entries : List (String × Node)} (f : Nat)
    (h1 : create_dir_all fs dst = (fs1, none)) (h2 : readDir fs1 src = Except.ok entries) :
    backup_directory (f + 1) fs src dst = procLevel (backup_directory f) fs1 src dst entries := by
  conv_lhs => unfold backup_directory
  rw [h1]
  dsimp only
  rw [h2]

theorem readDir_dir {fs : FS} {p : FPath} (h : fsGet fs p = some Node.dir) :
    readDir fs p = Except.ok (childrenOf fs p) := by
  unfold readDir
  rw [h]

/-!
Write locality: backup_directory only touches paths comparable with dst
(prefixes of dst, dst itself, or paths under dst), on every outcome
including errors and fuel exhaustion.
-/

theorem procLevel_frame (src dst : FPath)
    (recurse : FS → FPath → FPath → FS × Option String)
    (hrec : ∀ (fs2 : FS) (n : String) (q : FPath), ¬ q <+: dst ++ [n] →
      ¬ (dst ++ [n]) <+: q →
      fsGet ((recurse fs2 (src ++ [n]) (dst ++ [n])).1) q = fsGet fs2 q) :
    ∀ (es : List (String × Node)) (fs : FS) (q : FPath), ¬ q <+: dst → ¬ dst <+: q →
      fsGet ((procLevel recurse fs src dst es).1) q = fsGet fs q := by
  intro es
  induction es with
  | nil => intro fs q _ _; rfl
  | cons e rest ih =>
    intro fs q h1 h2
    obtain ⟨n, nd⟩ := e
    have hq1 : ¬ q <+: dst ++ [n] := by
      intro hc
      rcases prefix_snoc_cases hc with hc | hc
      · exact h1 hc
      · exact h2 (hc ▸ List.prefix_append dst [n])
    have hq2 : ¬ (dst ++ [n]) <+: q := fun hc => h2 ((List.prefix_append dst [n]).trans hc)
    cases nd with
    | other =>
      rw [procLevel_other]
      exact ih fs q h1 h2
    | dir =>
      cases hrc : recurse fs (src ++ [n]) (dst ++ [n]) with
      | mk fs1 err =>
        have hstep : fsGet fs1 q = fsGet fs q := by
          have h3 := hrec fs n q hq1 hq2
          rw [hrc] at h3
          exact h3
        cases err with
        | some e2 =>
          rw [procLevel_dir_err rest hrc]
          exact hstep
        | none =>
          rw [procLevel_dir_ok rest hrc, ih fs1 q h1 h2]
          exact hstep
    | file c =>
      cases hcp : copyFile fs (src ++ [n]) (dst ++ [n]) with
      | mk fs1 err =>
        have hne : q ≠ dst ++ [n] := fun hc => hq2 (hc ▸ List.prefix_rfl)
        cases err with
        | some e2 =>
          rw [procLevel_file_err rest hcp]
          rw [copyFile_err hcp]
        | none =>
          obtain ⟨c2, _, _, hset⟩ := copyFile_ok hcp
          rw [procLevel_file_ok rest hcp, ih fs1 q h1 h2, hset,
            fsGet_fsSet_ne _ _ _ _ hne]

theorem bd_frame : ∀ (fuel : Nat) (fs : FS) (src dst q : FPath), ¬ q <+: dst → ¬ dst <+: q →
    fsGet ((backup_directory fuel fs src dst).1) q = fsGet fs q := by
  intro fuel
  induction fuel with
  | zero => intro fs src dst q _ _; rfl
  | succ f ih =>
    intro fs src dst q h1 h2
    cases hc : create_dir_all fs dst with
    | mk fs1 err =>
      have hstep : fsGet fs1 q = fsGet fs q := by
        have hq : q ∉ pathPrefixes dst := fun hm => h1 (mem_pathPrefixes.mp hm).1
        have h3 := mkDirs_frame (pathPrefixes dst) fs q hq
        rw [show mkDirs fs (pathPrefixes dst) = (fs1, err) from hc] at h3
        exact h3
      cases err with
      | some e =>
        rw [bd_succ_createErr f src hc]
        exact hstep
      | none =>
        cases hrd : readDir fs1 src with
        | error e =>
          rw [bd_succ_readErr f hc hrd]
          exact hstep
        | ok entries =>
          rw [bd_succ_ok f hc hrd,
            procLevel_frame src dst (backup_directory f)
              (fun fs2 n q2 hA hB => ih fs2 (src ++ [n]) (dst ++ [n]) q2 hA hB)
              entries fs1 q h1 h2]
          exact hstep

/-- C10 counterexample: copying src = a/b into dst = a (dst is not inside
src's subtree) creates the new entry a/b/f under src: the recursive call
for the subdirectory b of a/b copies a/b/b/f to a/b/f, writing inside the
source subtree. The operation even reports success. -/
theorem c10_counterexample :
    (¬ ["a", "b"] <+: ["a"]) ∧
    fsGet fsOverlap ["a", "b", "f"] = none ∧
    backup_directory 3 fsOverlap ["a", "b"] ["a"] =
      ([([], Node.dir), (["a"], Node.dir), (["a", "b"], Node.dir),
        (["a", "b", "b"], Node.dir), (["a", "b", "b", "f"], Node.file [7]),
        (["a", "b", "f"], Node.file [7])], none) := by decide

/-- C10 (amended): when neither src nor dst lies inside the other's
subtree, backup_directory never creates, modifies or deletes any entry
at or under src, on every outcome (success, error, or fuel exhaustion):
every path under src keeps exactly the binding it had before. -/
theorem c10_src_untouched (fuel : Nat) (fs : FS) (src dst : FPath)
    (h1 : ¬ src <+: dst) (h2 : ¬ dst <+: src) :
    ∀ q, src <+: q → fsGet ((backup_directory fuel fs src dst).1) q = fsGet fs q := by
  intro q hq
  apply bd_frame
  · intro hc
    exact h1 (hq.trans hc)
  · intro hc
    rcases List.prefix_or_prefix_of_prefix hq hc with h | h
    · exact h1 h
    · exact h2 h

/-- Witness for C10: backing up s into the fresh sibling s_bak leaves
every path under s bound exactly as before. -/
theorem c10_witness :
    (¬ ["s"] <+: ["s_bak"]) ∧ (¬ ["s_bak"] <+: ["s"]) ∧
    ∀ q, ["s"] <+: q →
      fsGet ((backup_directory 2 fsSmall ["s"] ["s_bak"]).1) q = fsGet fsSmall q :=
  ⟨by decide, by decide,
   c10_src_untouched 2 fsSmall ["s"] ["s_bak"] (by decide) (by decide)⟩

/-- C2 counterexample: two runs failing on different paths (s/x in fsErrX,
s/y in fsErrY) return the very same error value, the context string
"copying file" — as in the Rust program, where the anyhow context added
at main.rs line 89 is a fixed string and the wrapped io::Error carries no
path either, so the error does not identify which path failed. -/
theorem c2_counterexample :
    (backup_directory 1 fsErrX ["s"] ["d"]).2 = some "copying file" ∧
    (backup_directory 1 fsErrY ["s"] ["d"]).2 = some "copying file" ∧
    fsGet fsErrX ["s", "x"] = some (Node.file [1]) ∧
    fsGet fsErrY ["s", "x"] = none ∧
    fsGet fsErrY ["s", "y"] = some (Node.file [2]) := by decide

/-- C2 (amended): the first error encountered aborts the entire operation
immediately and is returned to the caller wrapped with a static context
string identifying the failed operation (though not the failing path); no
entries after the failing one are processed, and the filesystem is
returned exactly as it stood at the failure, so entries already copied
are left in place (no rollback or cleanup). -/
theorem c2_first_error_aborts :
    (∀ (recurse : FS → FPath → FPath → FS × Option String) (fs : FS) (src dst : FPath)
      (es1 es2 : List (String × Node)) (fs2 : FS) (e : String),
      procLevel recurse fs src dst es1 = (fs2, some e) →
      procLevel recurse fs src dst (es1 ++ es2) = (fs2, some e)) ∧
    (∀ (fs fs1 : FS) (dst : FPath) (e : String) (f : Nat) (src : FPath),
      create_dir_all fs dst = (fs1, some e) →
      backup_directory (f + 1) fs src dst = (fs1, some e)) ∧
    (∀ (fs fs1 : FS) (src dst : FPath) (e : String) (f : Nat),
      create_dir_all fs dst = (fs1, none) → readDir fs1 src = Except.error e →
      backup_directory (f + 1) fs src dst = (fs1, some e)) := by
  refine ⟨?_, ?_, ?_⟩
  · intro recurse fs src dst es1
    induction es1 generalizing fs with
    | nil =>
      intro es2 fs2 e h
      rw [procLevel_nil] at h
      simp at h
    | cons entry rest ih =>
      intro es2 fs2 e h
      obtain ⟨n, nd⟩ := entry
      cases nd with
      | other =>
        rw [procLevel_other] at h
        rw [List.cons_append, procLevel_other]
        exact ih fs es2 fs2 e h
      | dir =>
        cases hrc : recurse fs (src ++ [n]) (dst ++ [n]) with
        | mk fsr err =>
          cases err with
          | some e2 =>
            rw [procLevel_dir_err rest hrc] at h
            rw [List.cons_append, procLevel_dir_err (rest ++ es2) hrc]
            exact h
          | none =>
            rw [procLevel_dir_ok rest hrc] at h
            rw [List.cons_append, procLevel_dir_ok (rest ++ es2) hrc]
            exact ih fsr es2 fs2 e h
      | file c =>
        cases hcp : copyFile fs (src ++ [n]) (dst ++ [n]) with
        | mk fsr err =>
          cases err with
          | some e2 =>
            rw [procLevel_file_err rest hcp] at h
            rw [List.cons_append, procLevel_file_err (rest ++ es2) hcp]
            exact h
          | none =>
            rw [procLevel_file_ok rest hcp] at h
            rw [List.cons_append, procLevel_file_ok (rest ++ es2) hcp]
            exact ih fsr es2 fs2 e h
  · intro fs fs1 dst e f src h
    exact bd_succ_createErr f src h
  · intro fs fs1 src dst e f h1 h2
    exact bd_succ_readErr f h1 h2

/-- Witness for C2: in fsErrX the copy of entry x fails (d/x is a
directory); processing the one-entry list already fails with the
filesystem unchanged, and appending a further entry y leaves the result
identical — y is never processed and nothing is rolled back. -/
theorem c2_witness :
    procLevel (backup_directory 1) fsErrX ["s"] ["d"]
      ([("x", Node.file [1])] ++ [("y", Node.file [2])]) =
      (fsErrX, some "copying file") :=
  c2_first_error_aborts.1 (backup_directory 1) fsErrX ["s"] ["d"]
    [("x", Node.file [1])] [("y", Node.file [2])] fsErrX "copying file" (by decide)

/-- C6: backup_directory first creates dst with all missing ancestors and
succeeds with no change when they already exist (idempotent creation);
then, over the snapshotted direct entries of src: a non-regular entry
(symlink, socket, device) is silently skipped with no effect, a regular
file's current contents are written to dst/entry_name overwriting any
existing file there, and a subdirectory triggers a recursive call with
dst/entry_name as the new destination, the loop continuing on the
resulting filesystem. -/
theorem c6_copy_tree_steps :
    (∀ (fs : FS) (dst : FPath), (∀ q ∈ pathPrefixes dst, fsGet fs q = some Node.dir) →
      create_dir_all fs dst = (fs, none)) ∧
    (∀ (fs : FS) (dst : FPath), (create_dir_all fs dst).2 = none →
      ∀ q ∈ pathPrefixes dst, fsGet ((create_dir_all fs dst).1) q = some Node.dir) ∧
    (∀ (recurse : FS → FPath → FPath → FS × Option String) (fs : FS) (src dst : FPath)
      (n : String) (rest : List (String × Node)),
      procLevel recurse fs src dst ((n, Node.other) :: rest) =
        procLevel recurse fs src dst rest) ∧
    (∀ (fs : FS) (s d : FPath) (c : List Nat), fsGet fs s = some (Node.file c) →
      fsGet fs d ≠ some Node.dir →
      copyFile fs s d = (fsSet fs d (Node.file c), none) ∧
        fsGet (fsSet fs d (Node.file c)) d = some (Node.file c)) ∧
    (∀ (recurse : FS → FPath → FPath → FS × Option String) (fs fs1 : FS) (src dst : FPath)
      (n : String) (rest : List (String × Node)),
      recurse fs (src ++ [n]) (dst ++ [n]) = (fs1, none) →
      procLevel recurse fs src dst ((n, Node.dir) :: rest) =
        procLevel recurse fs1 src dst rest) := by
  refine ⟨?_, ?_, ?_, ?_, ?_⟩
  · intro fs dst h
    exact mkDirs_noop (pathPrefixes dst) fs h
  · intro fs dst h q hq
    exact mkDirs_ok_dirs (pathPrefixes dst) fs h q hq
  · intro recurse fs src dst n rest
    exact procLevel_other recurse fs src dst n rest
  · intro fs s d c h1 h2
    exact ⟨copyFile_write h1 h2, fsGet_fsSet_self fs d (Node.file c)⟩
  · intro recurse fs fs1 src dst n rest h
    exact procLevel_dir_ok rest h

/-- Witness for C6: idempotent creation at the existing d; creation of the
two missing ancestors of s_bak/sub; a symlink entry skipped; the file s/a
copied over the existing file d/z (overwrite); and a subdirectory entry
continuing the loop on the recursion's result. -/
theorem c6_witness :
    create_dir_all fsPre ["d"] = (fsPre, none) ∧
    (∀ q ∈ pathPrefixes ["s_bak", "sub"],
      fsGet ((create_dir_all fsSmall ["s_bak", "sub"]).1) q = some Node.dir) ∧
    procLevel (fun fs _ _ => (fs, none)) fsSmall ["s"] ["s_bak"] [("lnk", Node.other)] =
      procLevel (fun fs _ _ => (fs, none)) fsSmall ["s"] ["s_bak"] [] ∧
    (copyFile fsPre ["s", "a"] ["d", "z"] = (fsSet fsPre ["d", "z"] (Node.file [1]), none) ∧
      fsGet (fsSet fsPre ["d", "z"] (Node.file [1])) ["d", "z"] = some (Node.file [1])) ∧
    procLevel (fun fs _ _ => (fs, none)) fsSmall ["s"] ["s_bak"] [("sub", Node.dir)] =
      procLevel (fun fs _ _ => (fs, none)) fsSmall ["s"] ["s_bak"] [] :=
  ⟨c6_copy_tree_steps.1 fsPre ["d"] (by decide),
   c6_copy_tree_steps.2.1 fsSmall ["s_bak", "sub"] (by decide),
   c6_copy_tree_steps.2.2.1 (fun fs _ _ => (fs, none)) fsSmall ["s"] ["s_bak"] "lnk" [],
   c6_copy_tree_steps.2.2.2.1 fsPre ["s", "a"] ["d", "z"] [1] (by decide) (by decide),
   c6_copy_tree_steps.2.2.2.2 (fun fs _ _ => (fs, none)) fsSmall fsSmall ["s"] ["s_bak"]
     "sub" [] rfl⟩

/-!
The main correctness lemma for a successful backup_directory run.
-/

theorem singleton_prefix_cons {m n : String} {t : List String} (h : [m] <+: n :: t) :
    m = n :=
  (List.cons_prefix_cons.mp h).1

theorem snoc_prefix_append_cons {dst : FPath} {m n : String} {rel : List String}
    (h : dst ++ [m] <+: dst ++ n :: rel) : m = n :=
  singleton_prefix_cons (prefix_append_cancel h)

theorem snoc_prefix_snoc_names {dst : FPath} {m n : String}
    (h : dst ++ [m] <+: dst ++ [n]) : m = n :=
  snoc_prefix_append_cons h

theorem snoc_not_prefix_shorter {dst q : FPath} {x : String}
    (h : dst ++ [x] <+: q) (h2 : q <+: dst) : False := by
  have l1 := h.length_le
  have l2 := h2.length_le
  simp at l1
  omega

theorem procLevel_ok_spec (src dst : FPath)
    (hsd : ¬ src <+: dst) (hds : ¬ dst <+: src)
    (recurse : FS → FPath → FPath → FS × Option String)
    (hrec : ∀ (fs2 : FS) (s2 d2 : FPath),
      fsNodup fs2 → fsParentClosed fs2 → fsGet fs2 s2 = some Node.dir →
      (∀ q, s2 <+: q → fsGet fs2 q ≠ some Node.other) →
      (∀ q, d2 <+: q → fsGet fs2 q = none) →
      ¬ s2 <+: d2 →
      (recurse fs2 s2 d2).2 = none →
      (∀ rel, rel ≠ [] →
        fsGet ((recurse fs2 s2 d2).1) (d2 ++ rel) = fsGet fs2 (s2 ++ rel)) ∧
      (∀ q, q <+: d2 → fsGet ((recurse fs2 s2 d2).1) q = some Node.dir) ∧
      fsNodup ((recurse fs2 s2 d2).1) ∧ fsParentClosed ((recurse fs2 s2 d2).1) ∧
      (∀ q, ¬ d2 <+: q → (q <+: d2 → fsGet fs2 q = some Node.dir) →
        fsGet ((recurse fs2 s2 d2).1) q = fsGet fs2 q)) :
    ∀ (es : List (String × Node)) (fs : FS),
      fsNodup fs → fsParentClosed fs →
      fsGet fs src = some Node.dir →
      (∀ q, src <+: q → fsGet fs q ≠ some Node.other) →
      (∀ p ∈ es, fsGet fs (src ++ [p.1]) = some p.2) →
      (∀ p ∈ es, ∀ q, (dst ++ [p.1]) <+: q → fsGet fs q = none) →
      (es.map Prod.fst).Nodup →
      (∀ q, q <+: dst → fsGet fs q = some Node.dir) →
      (procLevel recurse fs src dst es).2 = none →
      (∀ p ∈ es, ∀ rel2,
        fsGet ((procLevel recurse fs src dst es).1) (dst ++ p.1 :: rel2) =
          fsGet fs (src ++ p.1 :: rel2)) ∧
      (∀ q, (∀ p ∈ es, ¬ (dst ++ [p.1]) <+: q) →
        fsGet ((procLevel recurse fs src dst es).1) q = fsGet fs q) ∧
      fsNodup ((procLevel recurse fs src dst es).1) ∧
      fsParentClosed ((procLevel recurse fs src dst es).1) := by
  intro es
  induction es with
  | nil =>
    intro fs hn hpc _ _ _ _ _ _ _
    exact ⟨fun p hp => absurd hp (by simp), fun q _ => rfl, hn, hpc⟩
  | cons entry rest ih =>
    intro fs hn hpc hsrc hnoother hacc hslots hnames hpref hok
    obtain ⟨n, nd⟩ := entry
    have haccn : fsGet fs (src ++ [n]) = some nd := hacc (n, nd) (List.mem_cons_self _ _)
    have hslotn : ∀ q, (dst ++ [n]) <+: q → fsGet fs q = none :=
      hslots (n, nd) (List.mem_cons_self _ _)
    have hnmem : n ∉ (rest.map Prod.fst) := by
      rw [List.map_cons, List.nodup_cons] at hnames
      exact hnames.1
    have hnames2 : (rest.map Prod.fst).Nodup := by
      rw [List.map_cons, List.nodup_cons] at hnames
      exact hnames.2
    -- the source cone and the entry's destination cone are disjoint
    have hsrc_cone : ∀ q, src <+: q → ¬ (dst ++ [n]) <+: q ∧ ¬ q <+: dst ++ [n] := by
      intro q hq
      constructor
      · intro hc
        exact cone_disjoint hsd hds hq ((List.prefix_append dst [n]).trans hc)
      · intro hc
        rcases prefix_snoc_cases hc with hc | hc
        · exact hsd (hq.trans hc)
        · subst hc
          exact cone_disjoint hsd hds hq (List.prefix_append dst [n])
    -- a path at or under another remaining entry's slot avoids this entry's cone
    have hother_slot : ∀ (m : String) (q : FPath), m ≠ n → (dst ++ [m]) <+: q →
        ¬ (dst ++ [n]) <+: q ∧ ¬ q <+: dst ++ [n] := by
      intro m q hmn hmq
      constructor
      · intro hc
        rcases List.prefix_or_prefix_of_prefix hmq hc with h | h
        · exact hmn (snoc_prefix_snoc_names h)
        · exact hmn (snoc_prefix_snoc_names h).symm
      · intro hc
        exact hmn (snoc_prefix_snoc_names (hmq.trans hc))
    cases nd with
    | other =>
      exact absurd haccn (hnoother (src ++ [n]) (List.prefix_append src [n]))
    | dir =>
      cases hrc : recurse fs (src ++ [n]) (dst ++ [n]) with
      | mk fs1 err =>
        cases err with
        | some e2 =>
          rw [procLevel_dir_err rest hrc] at hok
          simp at hok
        | none =>
          rw [procLevel_dir_ok rest hrc] at hok ⊢
          have hsub := hrec fs (src ++ [n]) (dst ++ [n]) hn hpc haccn
            (fun q hq => hnoother q ((List.prefix_append src [n]).trans hq))
            hslotn
            (fun hc => hsd (snoc_prefix_snoc hc))
            (by rw [hrc])
          rw [hrc] at hsub
          dsimp only at hsub
          obtain ⟨hQc, hQb, hnodup1, hpc1, hQf⟩ := hsub
          -- the source cone is untouched by the sub-call
          have hsrc_keep : ∀ q, src <+: q → fsGet fs1 q = fsGet fs q := by
            intro q hq
            obtain ⟨hA, hB⟩ := hsrc_cone q hq
            exact hQf q hA (fun hc => absurd hc hB)
          -- remaining slots are untouched by the sub-call
          have hslot_keep : ∀ (m : String) (q : FPath), m ≠ n → (dst ++ [m]) <+: q →
              fsGet fs1 q = fsGet fs q := by
            intro m q hmn hmq
            obtain ⟨hA, hB⟩ := hother_slot m q hmn hmq
            exact hQf q hA (fun hc => absurd hc hB)
          -- prefixes of dst stay directories
          have hpref1 : ∀ q, q <+: dst → fsGet fs1 q = some Node.dir := by
            intro q hq
            exact hQb q (hq.trans (List.prefix_append dst [n]))
          have hrest := ih fs1 hnodup1 hpc1
            (by rw [hsrc_keep src List.prefix_rfl]; exact hsrc)
            (fun q hq => by rw [hsrc_keep q hq]; exact hnoother q hq)
            (fun p hp => by
              rw [hsrc_keep (src ++ [p.1]) (List.prefix_append src [p.1])]
              exact hacc p (List.mem_cons_of_mem _ hp))
            (fun p hp q hq => by
              have hpn : p.1 ≠ n := fun hc => hnmem (hc ▸ List.mem_map.mpr ⟨p, hp, rfl⟩)
              rw [hslot_keep p.1 q hpn hq]
              exact hslots p (List.mem_cons_of_mem _ hp) q hq)
            hnames2 hpref1 hok
          obtain ⟨hL1, hL2, hnodup2, hpc2⟩ := hrest
          refine ⟨?_, ?_, hnodup2, hpc2⟩
          · intro p hp rel2
            rcases List.mem_cons.mp hp with hp | hp
            · subst hp
              dsimp only
              have hkeep : ∀ p2 ∈ rest, ¬ (dst ++ [p2.1]) <+: dst ++ n :: rel2 := by
                intro p2 hp2 hc
                have hpn : p2.1 = n := snoc_prefix_append_cons hc
                exact hnmem (hpn ▸ List.mem_map.mpr ⟨p2, hp2, rfl⟩)
              rw [hL2 (dst ++ n :: rel2) hkeep]
              cases hrel2 : rel2 with
              | nil =>
                rw [hQb (dst ++ [n]) List.prefix_rfl]
                exact haccn.symm
              | cons b t =>
                have h1 := hQc (b :: t) (by simp)
                rw [show dst ++ [n] ++ b :: t = dst ++ n :: b :: t by simp,
                    show src ++ [n] ++ b :: t = src ++ n :: b :: t by simp] at h1
                exact h1
            · have hpn : p.1 ≠ n := fun hc => hnmem (hc ▸ List.mem_map.mpr ⟨p, hp, rfl⟩)
              rw [hL1 p hp rel2]
              exact hsrc_keep (src ++ p.1 :: rel2) ⟨p.1 :: rel2, rfl⟩
          · intro q hq
            have hqn : ¬ (dst ++ [n]) <+: q := hq (n, Node.dir) (List.mem_cons_self _ _)
            rw [hL2 q (fun p hp => hq p (List.mem_cons_of_mem _ hp))]
            apply hQf q hqn
            intro hc
            rcases prefix_snoc_cases hc with hc | hc
            · exact hpref q hc
            · subst hc
              exact absurd List.prefix_rfl hqn
    | file c =>
      cases hcp : copyFile fs (src ++ [n]) (dst ++ [n]) with
      | mk fs1 err =>
        cases err with
        | some e2 =>
          rw [procLevel_file_err rest hcp] at hok
          simp at hok
        | none =>
          rw [procLevel_file_ok rest hcp] at hok ⊢
          have hdstn_none : fsGet fs (dst ++ [n]) = none := hslotn (dst ++ [n]) List.prefix_rfl
          have hwrite : fs1 = fsSet fs (dst ++ [n]) (Node.file c) := by
            have h2 := copyFile_write haccn (by rw [hdstn_none]; simp)
            rw [hcp] at h2
            exact congrArg Prod.fst h2
          subst hwrite
          -- facts about the written state
          have hget_ne : ∀ q, q ≠ dst ++ [n] →
              fsGet (fsSet fs (dst ++ [n]) (Node.file c)) q = fsGet fs q :=
            fun q hq => fsGet_fsSet_ne fs (dst ++ [n]) q (Node.file c) hq
          have hsrc_cone_ne : ∀ q, src <+: q → q ≠ dst ++ [n] := by
            intro q hq hc
            subst hc
            exact cone_disjoint hsd hds hq (List.prefix_append dst [n])
          have hnodup1 : fsNodup (fsSet fs (dst ++ [n]) (Node.file c)) :=
            fsNodup_fsSet hn (dst ++ [n]) (Node.file c)
          have hpc1 : fsParentClosed (fsSet fs (dst ++ [n]) (Node.file c)) := by
            apply fsSet_parentClosed_file hpc (by simp)
            · rw [List.dropLast_concat]
              exact hpref dst List.prefix_rfl
            · rw [hdstn_none]
              simp
          have hpref1 : ∀ q, q <+: dst →
              fsGet (fsSet fs (dst ++ [n]) (Node.file c)) q = some Node.dir := by
            intro q hq
            rw [hget_ne q (fun hc => snoc_not_prefix_shorter (by rw [hc]) hq)]
            exact hpref q hq
          have hrest := ih (fsSet fs (dst ++ [n]) (Node.file c)) hnodup1 hpc1
            (by rw [hget_ne src (hsrc_cone_ne src List.prefix_rfl)]; exact hsrc)
            (fun q hq => by rw [hget_ne q (hsrc_cone_ne q hq)]; exact hnoother q hq)
            (fun p hp => by
              rw [hget_ne (src ++ [p.1]) (hsrc_cone_ne _ (List.prefix_append src [p.1]))]
              exact hacc p (List.mem_cons_of_mem _ hp))
            (fun p hp q hq => by
              have hpn : p.1 ≠ n := fun hc => hnmem (hc ▸ List.mem_map.mpr ⟨p, hp, rfl⟩)
              have hqne : q ≠ dst ++ [n] := by
                intro hc
                subst hc
                exact hpn (snoc_prefix_snoc_names hq)
              rw [hget_ne q hqne]
              exact hslots p (List.mem_cons_of_mem _ hp) q hq)
            hnames2 hpref1 hok
          obtain ⟨hL1, hL2, hnodup2, hpc2⟩ := hrest
          refine ⟨?_, ?_, hnodup2, hpc2⟩
          · intro p hp rel2
            rcases List.mem_cons.mp hp with hp | hp
            · subst hp
              dsimp only
              have hkeep : ∀ p2 ∈ rest, ¬ (dst ++ [p2.1]) <+: dst ++ n :: rel2 := by
                intro p2 hp2 hc
                have hpn : p2.1 = n := snoc_prefix_append_cons hc
                exact hnmem (hpn ▸ List.mem_map.mpr ⟨p2, hp2, rfl⟩)
              rw [hL2 (dst ++ n :: rel2) hkeep]
              cases hrel2 : rel2 with
              | nil =>
                rw [fsGet_fsSet_self fs (dst ++ [n]) (Node.file c)]
                exact haccn.symm
              | cons b t =>
                have hlong : dst ++ n :: b :: t ≠ dst ++ [n] := by
                  intro hc
                  have := List.append_cancel_left hc
                  simp at this
                rw [hget_ne (dst ++ n :: b :: t) hlong]
                have hdeeper : fsGet fs (dst ++ n :: b :: t) = none := by
                  apply hslotn
                  rw [show dst ++ n :: b :: t = (dst ++ [n]) ++ b :: t by simp]
                  exact List.prefix_append _ _
                rw [hdeeper]
                have hsrcside : fsGet fs (src ++ n :: b :: t) = none := by
                  have h2 := nondir_no_children hpc haccn (by simp) (b :: t) (by simp)
                  rwa [show src ++ [n] ++ b :: t = src ++ n :: b :: t by simp] at h2
                rw [hsrcside]
            · have hpn : p.1 ≠ n := fun hc => hnmem (hc ▸ List.mem_map.mpr ⟨p, hp, rfl⟩)
              rw [hL1 p hp rel2]
              apply hget_ne (src ++ p.1 :: rel2)
              exact hsrc_cone_ne (src ++ p.1 :: rel2) ⟨p.1 :: rel2, rfl⟩
          · intro q hq
            have hqn : ¬ (dst ++ [n]) <+: q := hq (n, Node.file c) (List.mem_cons_self _ _)
            rw [hL2 q (fun p hp => hq p (List.mem_cons_of_mem _ hp))]
            exact hget_ne q (fun hc => hqn (by rw [hc]))

theorem bd_ok_spec : ∀ (fuel : Nat) (fs : FS) (src dst : FPath),
    fsNodup fs → fsParentClosed fs → fsGet fs src = some Node.dir →
    (∀ q, src <+: q → fsGet fs q ≠ some Node.other) →
    (∀ q, dst <+: q → fsGet fs q = none) →
    ¬ src <+: dst →
    (backup_directory fuel fs src dst).2 = none →
    (∀ rel, rel ≠ [] → fsGet ((backup_directory fuel fs src dst).1) (dst ++ rel) =
        fsGet fs (src ++ rel)) ∧
    (∀ q, q <+: dst → fsGet ((backup_directory fuel fs src dst).1) q = some Node.dir) ∧
    fsNodup ((backup_directory fuel fs src dst).1) ∧
    fsParentClosed ((backup_directory fuel fs src dst).1) ∧
    (∀ q, ¬ dst <+: q → (q <+: dst → fsGet fs q = some Node.dir) →
      fsGet ((backup_directory fuel fs src dst).1) q = fsGet fs q) := by
  intro fuel
  induction fuel with
  | zero =>
    intro fs src dst _ _ _ _ _ _ hok
    rw [bd_zero] at hok
    simp at hok
  | succ f ih =>
    intro fs src dst hn hpc hsrc hnoother hempty hsd hok
    have hds : ¬ dst <+: src := fun hc => by
      rw [hempty src hc] at hsrc
      exact absurd hsrc (by simp)
    have hsrc_ne : src ≠ [] := fun hc => hsd (hc ▸ List.nil_prefix)
    have hroot : fsGet fs [] = some Node.dir :=
      ancestors_dir hpc hsrc [] List.nil_prefix (fun hc => hsrc_ne hc.symm)
    have hdst_none : fsGet fs dst = none := hempty dst List.prefix_rfl
    cases hc : create_dir_all fs dst with
    | mk fs1 err =>
      cases err with
      | some e =>
        rw [bd_succ_createErr f src hc] at hok
        simp at hok
      | none =>
        have hcm : mkDirs fs (pathPrefixes dst) = (fs1, none) := hc
        have hnodup1 : fsNodup fs1 := by
          have h2 := mkDirs_nodup (pathPrefixes dst) fs hn
          rw [hcm] at h2
          exact h2
        have hpc1 : fsParentClosed fs1 := by
          have h2 := mkDirs_parentClosed_prefixes dst fs hpc hroot (by rw [hc])
          rw [hc] at h2
          exact h2
        have hkeep1 : ∀ q (nd : Node), fsGet fs q = some nd → fsGet fs1 q = some nd := by
          intro q nd h2
          have h3 := mkDirs_existing (pathPrefixes dst) fs q nd h2
          rw [hcm] at h3
          exact h3
        have hframe1 : ∀ q, ¬ q <+: dst → fsGet fs1 q = fsGet fs q := by
          intro q h2
          have hnm : q ∉ pathPrefixes dst := fun hm => h2 (mem_pathPrefixes.mp hm).1
          have h3 := mkDirs_frame (pathPrefixes dst) fs q hnm
          rw [hcm] at h3
          exact h3
        have hpref1 : ∀ q, q <+: dst → fsGet fs1 q = some Node.dir := by
          intro q hq
          by_cases hqn : q = []
          · rw [hqn]
            exact hkeep1 [] Node.dir hroot
          · have hm : q ∈ pathPrefixes dst := mem_pathPrefixes.mpr ⟨hq, hqn⟩
            have h3 := mkDirs_ok_dirs (pathPrefixes dst) fs (by rw [hcm]) q hm
            rw [hcm] at h3
            exact h3
        have hsrc1 : fsGet fs1 src = some Node.dir := by
          rw [hframe1 src hsd]
          exact hsrc
        have hnoother1 : ∀ q, src <+: q → fsGet fs1 q ≠ some Node.other := by
          intro q hq
          rw [hframe1 q (fun hc2 => hsd (hq.trans hc2))]
          exact hnoother q hq
        have hentries := readDir_dir hsrc1
        rw [bd_succ_ok f hc hentries] at hok ⊢
        have hloop := procLevel_ok_spec src dst hsd hds (backup_directory f)
          (fun fs2 s2 d2 a1 a2 a3 a4 a5 a6 a7 => ih fs2 s2 d2 a1 a2 a3 a4 a5 a6 a7)
          (childrenOf fs1 src) fs1 hnodup1 hpc1 hsrc1 hnoother1
          (fun p hp => childrenOf_acc hnodup1 (by
            rw [show ((p.1, p.2) : String × Node) = p from rfl]
            exact hp))
          (fun p hp q hq => by
            have hq2 : ¬ q <+: dst := fun hc2 =>
              snoc_not_prefix_shorter (List.prefix_rfl.trans hq) hc2
            rw [hframe1 q hq2]
            exact hempty q ((List.prefix_append dst [p.1]).trans hq))
          (childrenOf_names_nodup hnodup1 src)
          hpref1 hok
        obtain ⟨hL1, hL2, hnodup2, hpc2⟩ := hloop
        refine ⟨?_, ?_, hnodup2, hpc2, ?_⟩
        · intro rel hrel
          rcases rel with _ | ⟨m, rel2⟩
          · exact absurd rfl hrel
          ·
            cases hsrc_m : fsGet fs1 (src ++ [m]) with
            | some nd =>
              have hmem : (m, nd) ∈ childrenOf fs1 src := childrenOf_complete hsrc_m
              have h2 := hL1 (m, nd) hmem rel2
              rw [h2]
              have hq : src <+: src ++ m :: rel2 := ⟨m :: rel2, rfl⟩
              rw [hframe1 (src ++ m :: rel2) (fun hc2 => hsd (hq.trans hc2))]
            | none =>
              have hnm : ∀ p ∈ childrenOf fs1 src, p.1 ≠ m := by
                intro p hp hc2
                have := childrenOf_acc hnodup1 (by
                  rw [show ((p.1, p.2) : String × Node) = p from rfl]
                  exact hp)
                rw [hc2, hsrc_m] at this
                exact absurd this (by simp)
              have h2 := hL2 (dst ++ m :: rel2) (fun p hp hc2 =>
                hnm p hp (snoc_prefix_append_cons hc2))
              rw [h2]
              have hdst_side : fsGet fs1 (dst ++ m :: rel2) = fsGet fs (dst ++ m :: rel2) := by
                apply hframe1
                intro hc2
                have := hc2.length_le
                simp at this
              rw [hdst_side, hempty (dst ++ m :: rel2) ⟨m :: rel2, rfl⟩]
              have hsrc_m0 : fsGet fs (src ++ [m]) = none := by
                have hq : ¬ (src ++ [m]) <+: dst := fun hc2 =>
                  hsd ((List.prefix_append src [m]).trans hc2)
                rw [← hframe1 (src ++ [m]) hq]
                exact hsrc_m
              rcases rel2 with _ | ⟨b, t⟩
              · rw [hsrc_m0]
              · have h3 := absent_under hpc hsrc_m0 (b :: t) (by simp)
                rw [show src ++ [m] ++ b :: t = src ++ m :: b :: t by simp] at h3
                rw [h3]
        · intro q hq
          have h2 := hL2 q (fun p hp hc2 => snoc_not_prefix_shorter hc2 hq)
          rw [h2]
          exact hpref1 q hq
        · intro q hqn hguard
          have h2 := hL2 q (fun p hp hc2 => hqn ((List.prefix_append dst [p.1]).trans hc2))
          rw [h2]
          by_cases hq2 : q <+: dst
          · rw [hpref1 q hq2, hguard hq2]
          · exact hframe1 q hq2

/-- C7 counterexample: the destination d already exists and carries a
pre-existing file z; the copy of s (containing only file a) into d
succeeds, yet afterwards the relative path z holds a regular file under
dst with no counterpart under src, so the set of relative paths under dst
does not equal the set under src, although dst is disjoint from src's
subtree and the source tree holds only regular files and directories. -/
theorem c7_counterexample :
    (backup_directory 2 fsPre ["s"] ["d"]).2 = none ∧
    (¬ ["s"] <+: ["d"]) ∧
    (∀ e ∈ fsPre, ["s"] <+: e.1 → e.2 ≠ Node.other) ∧
    fsGet ((backup_directory 2 fsPre ["s"] ["d"]).1) ["d", "z"] = some (Node.file [9]) ∧
    fsGet fsPre ["s", "z"] = none := by decide

/-- C7 (amended): for a well-formed filesystem (unique bindings, parents
present as directories) with src an existing directory whose subtree
contains only regular files and subdirectories, and a dst that is not
inside src's subtree and has no existing entry at or under it, if
copy_tree (backup_directory) returns success then dst is a directory and
every relative path rel carries exactly the same binding under dst as
under src: byte-identical regular files at corresponding paths, and the
sets of relative paths of files and directories under dst and under src
coincide. -/
theorem c7_copy_tree_roundtrip (fuel : Nat) (fs : FS) (src dst : FPath)
    (h1 : fsNodup fs) (h2 : fsParentClosed fs) (h3 : fsGet fs src = some Node.dir)
    (h4 : ∀ e ∈ fs, src <+: e.1 → e.2 ≠ Node.other)
    (h5 : ∀ e ∈ fs, ¬ dst <+: e.1)
    (h6 : ¬ src <+: dst)
    (hok : (backup_directory fuel fs src dst).2 = none) :
    (∀ rel, rel ≠ [] → fsGet ((backup_directory fuel fs src dst).1) (dst ++ rel) =
        fsGet fs (src ++ rel)) ∧
    fsGet ((backup_directory fuel fs src dst).1) dst = some Node.dir := by
  have h4b : ∀ q, src <+: q → fsGet fs q ≠ some Node.other := by
    intro q hq hcon
    exact h4 (q, Node.other) (fsGet_mem hcon) hq rfl
  have h5b : ∀ q, dst <+: q → fsGet fs q = none := by
    intro q hq
    cases hv : fsGet fs q with
    | none => rfl
    | some nd => exact absurd hq (h5 (q, nd) (fsGet_mem hv))
  obtain ⟨hQc, hQb, _, _, _⟩ := bd_ok_spec fuel fs src dst h1 h2 h3 h4b h5b h6 hok
  exact ⟨hQc, hQb dst List.prefix_rfl⟩

/-- Witness for C7: copying s (file a, subdirectory sub with file b) into
the fresh destination s_bak reproduces the whole tree. -/
theorem c7_witness :
    fsNodup fsSmall ∧ fsParentClosed fsSmall ∧ fsGet fsSmall ["s"] = some Node.dir ∧
    (∀ e ∈ fsSmall, ["s"] <+: e.1 → e.2 ≠ Node.other) ∧
    (∀ e ∈ fsSmall, ¬ ["s_bak"] <+: e.1) ∧
    (¬ ["s"] <+: ["s_bak"]) ∧
    (backup_directory 2 fsSmall ["s"] ["s_bak"]).2 = none ∧
    ((∀ rel, rel ≠ [] →
        fsGet ((backup_directory 2 fsSmall ["s"] ["s_bak"]).1) (["s_bak"] ++ rel) =
          fsGet fsSmall (["s"] ++ rel)) ∧
      fsGet ((backup_directory 2 fsSmall ["s"] ["s_bak"]).1) ["s_bak"] = some Node.dir) :=
  ⟨by decide, by decide, by decide, by decide, by decide, by decide, by decide,
   c7_copy_tree_roundtrip 2 fsSmall ["s"] ["s_bak"] (by decide) (by decide) (by decide)
     (by decide) (by decide) (by decide) (by decide)⟩
